import Mathlib

/-
Verification of the time-bounded adversarial search engine for the 2048 agent
(source file MinMaxABMO2.py).  The game-state facade (module Game2048) is not
part of the verified sources; it is modelled abstractly from the specification
as a structure of functions.  The wall clock behind timeRemaining is modelled
as a Boolean oracle read at a monotonically increasing index, so that one
oracle read corresponds to one timeRemaining() call.  Machine floats are
modelled as rationals; the values -inf and +inf that only ever appear as
alpha / beta bounds are modelled by Option, with none meaning -inf on the
alpha side and +inf on the beta side.
-/

/-- Dir is the type of the four directional actions of the game. -/
inductive Dir where
  | U | D | L | R
deriving DecidableEq, Repr

/-- GameState wraps a board (16 tile exponents, 0 = empty) and the accumulated
score, as described by the data model of the specification. -/
structure GameState where
  board : List Nat
  score : ℚ
deriving DecidableEq, Repr

/-- Modelled from the spec: the external Game State Facade (module Game2048 is
not among the verified sources).  It provides legal actions, deterministic move
application, enumeration of tile placements (cell index and tile value),
tile insertion, and the terminal check. -/
structure Game where
  actions : GameState → List Dir
  move : GameState → Dir → GameState
  possibleTiles : GameState → List (Nat × Nat)
  addTile : GameState → Nat → Nat → GameState
  gameOver : GameState → Bool

/-- Counters is the instrumentation state of the Player instance. -/
structure Counters where
  nodeCount : Nat
  parentCount : Nat
  childCount : Nat
  depthCount : Nat
  count : Nat
  pruneCount : Nat
deriving DecidableEq, Repr

/-- PState is the mutable state of the Player relevant to one findMove call:
the instrumentation counters, the committed move (written by setMove, read by
getMove), and the current read position of the clock oracle. -/
structure PState where
  ctr : Counters
  move : Option Dir
  t : Nat
deriving DecidableEq, Repr

/-- amax computes max(alpha, v) where none stands for -infinity. -/
def amax (a : Option ℚ) (v : ℚ) : Option ℚ :=
  match a with
  | none => some v
  | some x => some (max x v)

/-- bmin computes min(beta, v) where none stands for +infinity. -/
def bmin (b : Option ℚ) (v : ℚ) : Option ℚ :=
  match b with
  | none => some v
  | some x => some (min x v)

/-- abGe is the test alpha >= beta, with none meaning -infinity on the left
and +infinity on the right. -/
def abGe (a b : Option ℚ) : Bool :=
  match a, b with
  | some x, some y => decide (y ≤ x)
  | _, _ => false

/-- vLE v a states that the value v is at most the alpha bound a (none stands
for -infinity, so vLE never holds there). -/
def vLE (v : ℚ) (a : Option ℚ) : Prop := ∃ x, a = some x ∧ v ≤ x

/-- vGE v b states that the value v is at least the beta bound b (none stands
for +infinity, so vGE never holds there). -/
def vGE (v : ℚ) (b : Option ℚ) : Prop := ∃ x, b = some x ∧ x ≤ v

/-- KMspec w v a b collects the fail-soft alpha-beta value conditions for a
pruned result w against an unpruned value v inside the window (a, b): a fail
low returns an upper bound of v that is itself at most alpha, an in-window
result is exact, and a fail high returns a lower bound of v that is at least
beta. -/
def KMspec (w v : ℚ) (a b : Option ℚ) : Prop :=
  (vLE v a → v ≤ w ∧ vLE w a) ∧
  (¬ vLE v a → ¬ vGE v b → w = v) ∧
  (vGE v b → vGE w b ∧ w ≤ v)

/-- tile_weights is the fixed 4x4 weight matrix of moveOrder and
tile_gradient_score. -/
def tile_weights : List ℚ :=
  [4, 3, 2, 1,
   3, 1, 3/2, 1,
   2, 3/2, 1, 1/2,
   1, 1/2, 1/4, 1/10]

/-- gradient_score is the inner scoring function of moveOrder:
sum of board[i] * tile_weights[i] for i in range(16). -/
def gradient_score (board : List Nat) : ℚ :=
  ((List.range 16).map (fun i => (board.getD i 0 : ℚ) * tile_weights.getD i 0)).sum

/-- insertDesc inserts an element into a descending-sorted list, before the
first element whose key is at most its own (so earlier input elements stay
before later elements with an equal key). -/
def insertDesc {α : Type} (key : α → ℚ) (x : α) : List α → List α
  | [] => [x]
  | y :: ys => if key y ≤ key x then x :: y :: ys else y :: insertDesc key x ys

/-- sortDesc is a stable descending insertion sort by a rational key; it models
the stable descending sort used by moveOrder. -/
def sortDesc {α : Type} (key : α → ℚ) : List α → List α
  | [] => []
  | x :: xs => insertDesc key x (sortDesc key xs)

/-- moveOrder from the source: score every legal action by the gradient score
of its resulting board and sort the actions by descending score (stable). -/
def moveOrder (g : Game) (state : GameState) : List Dir :=
  let actions := g.actions state
  let scored := actions.map (fun a => (a, gradient_score (g.move state a).board))
  (sortDesc (fun x => x.2) scored).map (fun x => x.1)

/-- boardMax is the Python expression max(board) (for the nonempty boards the
program uses; the default 0 is the minimum of Nat). -/
def boardMax (b : List Nat) : Nat := b.foldl Nat.max 0

/-- anchor_penalty from the source: 1.0 if the maximum tile is in the top-left
cell, else 0.0. -/
def anchor_penalty (state : GameState) : ℚ :=
  if state.board.getD 0 0 = boardMax state.board then 1 else 0

/-- rowChain is the row loop of monotonic_chain_score: how far values decrease
along indices 0,1,2,3 while staying positive. -/
def rowChain (b : List Nat) : Nat :=
  if b.getD 0 0 ≥ b.getD 1 0 ∧ 0 < b.getD 1 0 then
    if b.getD 1 0 ≥ b.getD 2 0 ∧ 0 < b.getD 2 0 then
      if b.getD 2 0 ≥ b.getD 3 0 ∧ 0 < b.getD 3 0 then 4 else 3
    else 2
  else 1

/-- colChain is the column loop of monotonic_chain_score over indices
0,4,8,12. -/
def colChain (b : List Nat) : Nat :=
  if b.getD 0 0 ≥ b.getD 4 0 ∧ 0 < b.getD 4 0 then
    if b.getD 4 0 ≥ b.getD 8 0 ∧ 0 < b.getD 8 0 then
      if b.getD 8 0 ≥ b.getD 12 0 ∧ 0 < b.getD 12 0 then 4 else 3
    else 2
  else 1

/-- monotonic_chain_score from the source: max of the two chain lengths,
normalized by 4. -/
def monotonic_chain_score (state : GameState) : ℚ :=
  (max (rowChain state.board) (colChain state.board) : ℚ) / 4

/-- improved_corner_score from the source: 0.8 * anchor + 0.2 * chain. -/
def improved_corner_score (state : GameState) : ℚ :=
  (4/5) * anchor_penalty state + (1/5) * monotonic_chain_score state

/-- tile_gradient_score from the source: the gradient dot product normalized by
2048 * 4, capped at 1. -/
def tile_gradient_score (state : GameState) : ℚ :=
  min 1 (gradient_score state.board / 8192)

/-- heuristic from the source: score plus percent-scaled corner, empty-cell and
gradient bonuses, plus a small early-game top-left bonus. -/
def heuristic (state : GameState) : ℚ :=
  let board := state.board
  let base_score := state.score
  let value := base_score * 1
  let value := value + base_score * (11/20) * improved_corner_score state
  let empty_tiles := board.count 0
  let filled := 16 - empty_tiles
  let tile_pct : ℚ := if 12 ≤ filled then 1/50 else if 8 ≤ filled then 9/500 else 3/200
  let value := value + base_score * tile_pct * (empty_tiles : ℚ)
  let value := value + base_score * (3/25) * tile_gradient_score state
  if base_score < 1000 ∧ board.getD 0 0 = boardMax board then value + (3/100) * base_score
  else if base_score < 2000 ∧ board.getD 0 0 = boardMax board then value + (1/50) * base_score
  else value

mutual

/-- maxPlayer from the source: the Max ply of the alpha-beta search.  Returns
the value (none when the deadline aborted the call), the advanced clock index
and the updated counters. -/
def maxPlayer (g : Game) (h : GameState → ℚ) (clock : Nat → Bool)
    (depth : Nat) (state : GameState) (alpha beta : Option ℚ)
    (t : Nat) (c : Counters) : Option ℚ × Nat × Counters :=
  let c := { c with nodeCount := c.nodeCount + 1, childCount := c.childCount + 1 }
  if g.gameOver state then (some state.score, t, c)
  else
    match depth with
    | 0 => (some (h state), t, c)
    | d + 1 =>
      let actions := moveOrder g state
      let c := { c with parentCount := c.parentCount + 1 }
      maxLoop g h clock d state actions (-10000) alpha beta t c
termination_by (depth, 0)

/-- maxLoop is the action loop of maxPlayer: deadline check, recurse into
minPlayer, track the maximum, update alpha, cut off once alpha >= beta. -/
def maxLoop (g : Game) (h : GameState → ℚ) (clock : Nat → Bool)
    (d : Nat) (state : GameState) (l : List Dir) (best : ℚ)
    (alpha beta : Option ℚ) (t : Nat) (c : Counters) : Option ℚ × Nat × Counters :=
  match l with
  | [] => (some best, t, c)
  | a :: rest =>
    if clock t = false then (none, t + 1, c)
    else
      let result := g.move state a
      match minPlayer g h clock d result alpha beta (t + 1) c with
      | (none, t2, c2) => (none, t2, c2)
      | (some v, t2, c2) =>
        let best := if v > best then v else best
        let alpha := amax alpha best
        if abGe alpha beta then
          (some best, t2, { c2 with pruneCount := c2.pruneCount + 1 })
        else
          maxLoop g h clock d state rest best alpha beta t2 c2
termination_by (d, l.length + 1)

/-- minPlayer from the source: the Chance ply, minimizing over all tile
placements (adversarial model of the environment). -/
def minPlayer (g : Game) (h : GameState → ℚ) (clock : Nat → Bool)
    (depth : Nat) (state : GameState) (alpha beta : Option ℚ)
    (t : Nat) (c : Counters) : Option ℚ × Nat × Counters :=
  let c := { c with nodeCount := c.nodeCount + 1, childCount := c.childCount + 1 }
  if g.gameOver state then (some state.score, t, c)
  else
    match depth with
    | 0 => (some (h state), t, c)
    | d + 1 =>
      let c := { c with parentCount := c.parentCount + 1 }
      minLoop g h clock d state (g.possibleTiles state) 1000000 alpha beta t c
termination_by (depth, 0)

/-- minLoop is the placement loop of minPlayer: deadline check, recurse into
maxPlayer, track the minimum, update beta, cut off once alpha >= beta. -/
def minLoop (g : Game) (h : GameState → ℚ) (clock : Nat → Bool)
    (d : Nat) (state : GameState) (l : List (Nat × Nat)) (best : ℚ)
    (alpha beta : Option ℚ) (t : Nat) (c : Counters) : Option ℚ × Nat × Counters :=
  match l with
  | [] => (some best, t, c)
  | pv :: rest =>
    if clock t = false then (none, t + 1, c)
    else
      let result := g.addTile state pv.1 pv.2
      match maxPlayer g h clock d result alpha beta (t + 1) c with
      | (none, t2, c2) => (none, t2, c2)
      | (some v, t2, c2) =>
        let best := if v < best then v else best
        let beta := bmin beta best
        if abGe alpha beta then
          (some best, t2, { c2 with pruneCount := c2.pruneCount + 1 })
        else
          minLoop g h clock d state rest best alpha beta t2 c2
termination_by (d, l.length + 1)

end

/-- LoopAcc is the per-depth accumulator of the root action loop of findMove:
the best fully evaluated action of this depth, its value, and alpha. -/
structure LoopAcc where
  depthMove : Option Dir
  depthScore : ℚ
  alpha : Option ℚ
deriving DecidableEq, Repr

/-- rootLoop is the root action loop of one depth iteration of findMove:
skip no-op actions, check the deadline, evaluate via minPlayer (beta stays
+infinity at the root, passed as none), keep the best completed value,
update alpha; a deadline abort discards the partial result and stops. -/
def rootLoop (g : Game) (h : GameState → ℚ) (clock : Nat → Bool)
    (state : GameState) (depth : Nat) (l : List Dir) (acc : LoopAcc)
    (t : Nat) (c : Counters) : LoopAcc × Nat × Counters :=
  match l with
  | [] => (acc, t, c)
  | a :: rest =>
    let result := g.move state a
    if result.board = state.board then rootLoop g h clock state depth rest acc t c
    else if clock t = false then (acc, t + 1, c)
    else
      match minPlayer g h clock (depth - 1) result acc.alpha none (t + 1) c with
      | (none, t2, c2) => (acc, t2, c2)
      | (some v, t2, c2) =>
        let acc := if v > acc.depthScore then { acc with depthMove := some a, depthScore := v } else acc
        let acc := { acc with alpha := amax acc.alpha v }
        rootLoop g h clock state depth rest acc t2 c2

/-- findMoveLoop is the iterative-deepening while loop of findMove.  The fuel
argument is only an embedding device bounding the number of iterations of the
source's unbounded while loop; every claim about findMove is quantified over
it. -/
def findMoveLoop (g : Game) (h : GameState → ℚ) (clock : Nat → Bool)
    (state : GameState) (actions : List Dir) :
    Nat → Nat → Dir → ℚ → PState → PState
  | 0, _, _, _, st => st
  | fuel + 1, depth, bestMove, bestScore, st =>
    if clock st.t = false then { st with t := st.t + 1 }
    else
      let c := { st.ctr with depthCount := st.ctr.depthCount + 1 }
      let acc0 : LoopAcc := { depthMove := none, depthScore := -10000, alpha := none }
      match rootLoop g h clock state depth actions acc0 (st.t + 1) c with
      | (acc, t2, c2) =>
        match acc.depthMove with
        | some m =>
          findMoveLoop g h clock state actions fuel (depth + 1) m acc.depthScore
            { ctr := c2, move := some m, t := t2 }
        | none =>
          findMoveLoop g h clock state actions fuel (depth + 1) bestMove bestScore
            { st with ctr := c2, t := t2 }

/-- findMove from the source: count the call, order the root actions, commit
the top candidate as fallback (or the sentinel action U when there is no legal
action), then iteratively deepen until the deadline. -/
def findMove (g : Game) (h : GameState → ℚ) (clock : Nat → Bool) (fuel : Nat)
    (state : GameState) (st : PState) : PState :=
  let c := { st.ctr with count := st.ctr.count + 1 }
  let actions := moveOrder g state
  match actions with
  | [] => { st with ctr := c, move := some Dir.U }
  | a0 :: _ =>
    let st := { st with ctr := c, move := some a0 }
    findMoveLoop g h clock state actions fuel 1 a0 (-10000) st

/-- stats from the source, with the two divisions that raise ZeroDivisionError
on a zero denominator modelled as returning none. -/
def stats (c : Counters) : Option (ℚ × ℚ × Nat) :=
  if c.count = 0 then none
  else if c.parentCount = 0 then none
  else some ((c.depthCount : ℚ) / (c.count : ℚ),
             (c.childCount : ℚ) / (c.parentCount : ℚ),
             c.pruneCount)

mutual

/-- pureMax is maxPlayer stripped of the clock and the counters: the value the
search computes when every deadline check passes.  It is proved to agree with
the value component of maxPlayer under an always-true clock. -/
def pureMax (g : Game) (h : GameState → ℚ) (depth : Nat) (state : GameState)
    (alpha beta : Option ℚ) : ℚ :=
  if g.gameOver state then state.score
  else
    match depth with
    | 0 => h state
    | d + 1 => pureMaxLoop g h d state (moveOrder g state) (-10000) alpha beta
termination_by (depth, 0)

/-- pureMaxLoop is the action loop of pureMax. -/
def pureMaxLoop (g : Game) (h : GameState → ℚ) (d : Nat) (state : GameState)
    (l : List Dir) (best : ℚ) (alpha beta : Option ℚ) : ℚ :=
  match l with
  | [] => best
  | a :: rest =>
    let v := pureMin g h d (g.move state a) alpha beta
    let best := if v > best then v else best
    let alpha := amax alpha best
    if abGe alpha beta then best
    else pureMaxLoop g h d state rest best alpha beta
termination_by (d, l.length + 1)

/-- pureMin is minPlayer stripped of the clock and the counters. -/
def pureMin (g : Game) (h : GameState → ℚ) (depth : Nat) (state : GameState)
    (alpha beta : Option ℚ) : ℚ :=
  if g.gameOver state then state.score
  else
    match depth with
    | 0 => h state
    | d + 1 => pureMinLoop g h d state (g.possibleTiles state) 1000000 alpha beta
termination_by (depth, 0)

/-- pureMinLoop is the placement loop of pureMin. -/
def pureMinLoop (g : Game) (h : GameState → ℚ) (d : Nat) (state : GameState)
    (l : List (Nat × Nat)) (best : ℚ) (alpha beta : Option ℚ) : ℚ :=
  match l with
  | [] => best
  | pv :: rest =>
    let v := pureMax g h d (g.addTile state pv.1 pv.2) alpha beta
    let best := if v < best then v else best
    let beta := bmin beta best
    if abGe alpha beta then best
    else pureMinLoop g h d state rest best alpha beta
termination_by (d, l.length + 1)

end

mutual

/-- svMax is the unpruned traversal of exactly the tree maxPlayer walks: the
same terminal and cutoff leaves, the same fold seed -10000, but no window and
no cutoff. -/
def svMax (g : Game) (h : GameState → ℚ) (depth : Nat) (state : GameState) : ℚ :=
  if g.gameOver state then state.score
  else
    match depth with
    | 0 => h state
    | d + 1 =>
      ((moveOrder g state).map (fun a => svMin g h d (g.move state a))).foldl max (-10000)
termination_by (depth, 0)

/-- svMin is the unpruned traversal of the tree minPlayer walks, folding min
from the seed 1000000. -/
def svMin (g : Game) (h : GameState → ℚ) (depth : Nat) (state : GameState) : ℚ :=
  if g.gameOver state then state.score
  else
    match depth with
    | 0 => h state
    | d + 1 =>
      ((g.possibleTiles state).map
        (fun pv => svMax g h d (g.addTile state pv.1 pv.2))).foldl min 1000000
termination_by (depth, 0)

end

mutual

/-- Modelled from the spec: the unpruned alternating traversal named by the
alpha-beta equivalence property.  A Max node takes the maximum over its legal
actions, a Chance node the minimum over all placements from possibleTiles;
game-over states return the score, depth zero returns the evaluator; an empty
expansion falls back to the score (spec edge semantics). -/
def maxVal (g : Game) (h : GameState → ℚ) (depth : Nat) (state : GameState) : ℚ :=
  if g.gameOver state then state.score
  else
    match depth with
    | 0 => h state
    | d + 1 =>
      match (g.actions state).map (fun a => minVal g h d (g.move state a)) with
      | [] => state.score
      | v :: vs => vs.foldl max v
termination_by (depth, 0)

/-- Modelled from the spec: the Chance side of the unpruned alternating
traversal, minimizing over all tile placements. -/
def minVal (g : Game) (h : GameState → ℚ) (depth : Nat) (state : GameState) : ℚ :=
  if g.gameOver state then state.score
  else
    match depth with
    | 0 => h state
    | d + 1 =>
      match (g.possibleTiles state).map
          (fun pv => maxVal g h d (g.addTile state pv.1 pv.2)) with
      | [] => state.score
      | v :: vs => vs.foldl min v
termination_by (depth, 0)

end

/-- Modelled from the spec: the ordering score the Move Orderer section
describes, orderingScore = resultingScore + emptyCellCount * emptyTileWeight
with emptyTileWeight = max(16, maxTileValueOnBoard / 8) computed on the board
the action produces (tile value of an exponent e is 2 ^ e). -/
def specOrderScore (g : Game) (state : GameState) (a : Dir) : ℚ :=
  let result := g.move state a
  let maxTileValue : ℚ := (2 : ℚ) ^ boardMax result.board
  let emptyTileWeight : ℚ := max 16 (maxTileValue / 8)
  result.score + (result.board.count 0 : ℚ) * emptyTileWeight

/-- Modelled from the spec: the move orderer the specification describes,
sorting the legal actions by descending specOrderScore with a stable sort. -/
def specMoveOrder (g : Game) (state : GameState) : List Dir :=
  let scored := (g.actions state).map (fun a => (a, specOrderScore g state a))
  (sortDesc (fun x => x.2) scored).map (fun x => x.1)

/-- trueClock is the clock of a deadline that never expires. -/
def trueClock : Nat → Bool := fun _ => true

/-- falseClock is the clock of a deadline that has already expired. -/
def falseClock : Nat → Bool := fun _ => false

/-- c0 is the counter state at agent construction. -/
def c0 : Counters := ⟨0, 0, 0, 0, 0, 0⟩

/-- pst0 is a fresh player state: zero counters, no committed move, clock at
zero. -/
def pst0 : PState := ⟨c0, none, 0⟩

/-- toyMove is the move function of the concrete witness game. -/
def toyMove (s : GameState) (a : Dir) : GameState :=
  match a with
  | Dir.L => { board := 1 :: s.board, score := s.score + 2 }
  | Dir.R => { board := 2 :: s.board, score := s.score + 1 }
  | _ => s

/-- toyG is a small concrete game used to witness theorems whose hypotheses
are facade contracts: two always-legal actions, one possible tile placement,
never game over. -/
def toyG : Game where
  actions := fun _ => [Dir.L, Dir.R]
  move := toyMove
  possibleTiles := fun _ => [(0, 1)]
  addTile := fun s _ v => { board := v :: s.board, score := s.score - 1 }
  gameOver := fun _ => false

/-- toyH is a bounded deterministic evaluator for the witness game. -/
def toyH : GameState → ℚ := fun s => min 100 (s.board.length : ℚ)

/-- s0 is a concrete starting state for witnesses. -/
def s0 : GameState := { board := [1, 0, 0, 0, 0, 0, 0, 0, 0, 0, 0, 0, 0, 0, 0, 0], score := 0 }

/-- gEmptyTiles is a concrete game with a reachable chance node that has no
placement outcomes while the state is not game over: the board is full but a
merge is still available. -/
def gEmptyTiles : Game where
  actions := fun _ => [Dir.L]
  move := fun s _ => { board := 3 :: s.board, score := s.score + 1 }
  possibleTiles := fun _ => []
  addTile := fun s _ _ => s
  gameOver := fun _ => false

/-- sFull is a full board with score zero. -/
def sFull : GameState := { board := List.replicate 16 1, score := 0 }

/-- gNoop is a concrete game whose facade violates its contract by returning
an action that leaves the board unchanged. -/
def gNoop : Game where
  actions := fun _ => [Dir.L]
  move := fun s _ => s
  possibleTiles := fun _ => [(0, 1)]
  addTile := fun s _ _ => s
  gameOver := fun _ => false

/-- gOrder is a concrete game on which the source move orderer and the move
orderer described by the specification disagree. -/
def gOrder : Game where
  actions := fun _ => [Dir.L, Dir.R]
  move := fun s a =>
    match a with
    | Dir.L => { board := [0, 0, 0, 0, 0, 0, 0, 0, 0, 0, 0, 0, 0, 0, 0, 1], score := 1000 }
    | Dir.R => { board := [1, 0, 0, 0, 0, 0, 0, 0, 0, 0, 0, 0, 0, 0, 0, 0], score := 0 }
    | _ => s
  possibleTiles := fun _ => [(0, 1)]
  addTile := fun s _ _ => s
  gameOver := fun _ => false

/-- gTerm is a concrete game whose states are all terminal: no legal actions,
game over everywhere. -/
def gTerm : Game where
  actions := fun _ => []
  move := fun s _ => s
  possibleTiles := fun _ => []
  addTile := fun s _ _ => s
  gameOver := fun _ => true

/-- gNoAct is a concrete game violating the facade contract: no legal actions
yet not game over. -/
def gNoAct : Game where
  actions := fun _ => []
  move := fun s _ => s
  possibleTiles := fun _ => [(0, 1)]
  addTile := fun s _ _ => s
  gameOver := fun _ => false

/-- sNC is a board whose maximum tile sits at index 5, away from every
corner. -/
def sNC : GameState :=
  { board := [0, 0, 0, 0, 0, 1, 0, 0, 0, 0, 0, 0, 0, 0, 0, 0], score := 100 }

/-- clock1 is a deadline that expires right after the first check. -/
def clock1 : Nat → Bool := fun u => decide (u = 0)

theorem insertDesc_perm {α : Type} (key : α → ℚ) (x : α) (l : List α) :
    (insertDesc key x l).Perm (x :: l) := by
  induction l with
  | nil => simp [insertDesc]
  | cons y ys ih =>
    simp only [insertDesc]
    split
    · exact List.Perm.refl _
    · exact (ih.cons y).trans (List.Perm.swap x y ys)

theorem sortDesc_perm {α : Type} (key : α → ℚ) (l : List α) :
    (sortDesc key l).Perm l := by
  induction l with
  | nil => simp [sortDesc]
  | cons x xs ih =>
    exact (insertDesc_perm key x (sortDesc key xs)).trans (ih.cons x)

theorem map_fst_pair {α β : Type} (k : α → β) (l : List α) :
    (l.map (fun a => (a, k a))).map (fun x => x.1) = l := by
  induction l with
  | nil => rfl
  | cons a l ih => simp [ih]

theorem moveOrder_perm (g : Game) (s : GameState) :
    (moveOrder g s).Perm (g.actions s) := by
  unfold moveOrder
  have h1 := (sortDesc_perm (fun x : Dir × ℚ => x.2)
    ((g.actions s).map (fun a => (a, gradient_score (g.move s a).board)))).map
    (fun x : Dir × ℚ => x.1)
  rwa [map_fst_pair] at h1

theorem moveOrder_nil_iff (g : Game) (s : GameState) :
    moveOrder g s = [] ↔ g.actions s = [] := by
  constructor
  · intro hmo
    have := (moveOrder_perm g s).length_eq
    rw [hmo] at this
    exact List.length_eq_zero.mp this.symm
  · intro hA
    simp [moveOrder, hA, sortDesc]

theorem mem_moveOrder (g : Game) (s : GameState) (a : Dir) :
    a ∈ moveOrder g s ↔ a ∈ g.actions s :=
  (moveOrder_perm g s).mem_iff

/-- C4: for a state with zero legal actions, findMove returns (it is total),
commits the sentinel action U, only increments the per-move call counter, and
never invokes the static evaluator: the result is identical for every
evaluator. -/
theorem c4_thm (g : Game) (h h2 : GameState → ℚ) (clock : Nat → Bool) (fuel : Nat)
    (state : GameState) (st : PState) (hA : g.actions state = []) :
    findMove g h clock fuel state st =
      { st with ctr := { st.ctr with count := st.ctr.count + 1 }, move := some Dir.U } ∧
    findMove g h clock fuel state st = findMove g h2 clock fuel state st := by
  have hmo : moveOrder g state = [] := (moveOrder_nil_iff g state).mpr hA
  constructor <;> simp [findMove, hmo]

/-- C4 witness: the terminal game commits U and counts the call. -/
theorem c4_witness :
    gTerm.actions sFull = [] ∧
    findMove gTerm toyH falseClock 5 sFull pst0 =
      { pst0 with ctr := { pst0.ctr with count := pst0.ctr.count + 1 }, move := some Dir.U } :=
  ⟨rfl, (c4_thm gTerm toyH toyH falseClock 5 sFull pst0 rfl).1⟩

/-- C7 counterexample: on the board sNC the maximum tile is at index 5, in no
corner, yet the corner-anchoring term of the evaluator is nonzero (the chain
component of improved_corner_score never vanishes). -/
theorem c7_counterexample :
    sNC.board.getD 0 0 ≠ boardMax sNC.board ∧
    sNC.board.getD 3 0 ≠ boardMax sNC.board ∧
    sNC.board.getD 12 0 ≠ boardMax sNC.board ∧
    sNC.board.getD 15 0 ≠ boardMax sNC.board ∧
    sNC.score * (11/20) * improved_corner_score sNC ≠ 0 := by
  refine ⟨by decide, by decide, by decide, by decide, ?_⟩
  norm_num [sNC, improved_corner_score, anchor_penalty, monotonic_chain_score,
    rowChain, colChain, boardMax]

/-- C7 amended: the anchor component of the corner score is nonzero only when
the maximum tile sits at index 0 (the top-left corner, not any of the four),
and the chain component keeps the whole corner score at least 1/20, so the
corner term never contributes zero for a positive base score. -/
theorem c7_amended (s : GameState) :
    (anchor_penalty s ≠ 0 → s.board.getD 0 0 = boardMax s.board) ∧
    (1/20 : ℚ) ≤ improved_corner_score s := by
  constructor
  · intro hne
    by_contra hne2
    unfold anchor_penalty at hne
    rw [if_neg hne2] at hne
    exact hne rfl
  · have hr : 1 ≤ rowChain s.board := by
      unfold rowChain; repeat' split
      all_goals norm_num
    have hc : 1 ≤ colChain s.board := by
      unfold colChain; repeat' split
      all_goals norm_num
    have hmx : (1 : ℚ) ≤ (max (rowChain s.board) (colChain s.board) : ℚ) := by
      have : 1 ≤ max (rowChain s.board) (colChain s.board) := le_trans hr (le_max_left _ _)
      exact_mod_cast this
    have hchain : (1/4 : ℚ) ≤ monotonic_chain_score s := by
      unfold monotonic_chain_score
      linarith
    have hanchor : (0 : ℚ) ≤ anchor_penalty s := by
      unfold anchor_penalty
      split <;> norm_num
    unfold improved_corner_score
    linarith

/-- C7 witness: the amended bound evaluated at the counterexample board. -/
theorem c7_witness : (1/20 : ℚ) ≤ improved_corner_score sNC :=
  (c7_amended sNC).2

/-- C9 counterexample: with a facade that returns a board-preserving action,
findMove commits that no-op action (the initial fallback commitment happens
before any no-op check). -/
theorem c9_counterexample :
    (gNoop.move s0 Dir.L).board = s0.board ∧
    Dir.L ∈ gNoop.actions s0 ∧
    (findMove gNoop toyH falseClock 3 s0 pst0).move = some Dir.L := by
  refine ⟨rfl, by simp [gNoop], ?_⟩
  norm_num [findMove, moveOrder, gNoop, s0, sortDesc, insertDesc, findMoveLoop,
    falseClock, pst0, c0]

/-- C9 amended: only the root action loop of findMove filters no-op actions:
there a no-op action is skipped outright, and any action the loop commits
changes the board.  The move orderer does not filter no-ops and the initial
fallback commitment can be a no-op, as the counterexample shows. -/
theorem c9_amended (g : Game) (h : GameState → ℚ) (clock : Nat → Bool)
    (state : GameState) (depth : Nat) :
    (∀ a rest acc t c, (g.move state a).board = state.board →
      rootLoop g h clock state depth (a :: rest) acc t c =
        rootLoop g h clock state depth rest acc t c) ∧
    (∀ l acc t c x, (∀ y, acc.depthMove = some y → (g.move state y).board ≠ state.board) →
      (rootLoop g h clock state depth l acc t c).1.depthMove = some x →
      (g.move state x).board ≠ state.board) := by
  constructor
  · intro a rest acc t c hnoop
    rw [rootLoop]
    simp [hnoop]
  · intro l
    induction l with
    | nil =>
      intro acc t c x hacc hres
      rw [rootLoop] at hres
      exact hacc x hres
    | cons a rest ih =>
      intro acc t c x hacc hres
      rw [rootLoop] at hres
      by_cases hnoop : (g.move state a).board = state.board
      · rw [if_pos hnoop] at hres
        exact ih acc t c x hacc hres
      · rw [if_neg hnoop] at hres
        by_cases hck : clock t = false
        · rw [if_pos hck] at hres
          exact hacc x hres
        · rw [if_neg hck] at hres
          rcases hmp : minPlayer g h clock (depth - 1) (g.move state a) acc.alpha none (t + 1) c with
            ⟨r, t2, c2⟩
          rw [hmp] at hres
          cases r with
          | none => exact hacc x hres
          | some v =>
            dsimp only at hres
            by_cases hgt : v > acc.depthScore
            · simp only [if_pos hgt] at hres
              refine ih _ t2 c2 x ?_ hres
              intro y hy
              simp at hy
              rw [← hy]
              exact hnoop
            · simp only [if_neg hgt] at hres
              refine ih _ t2 c2 x ?_ hres
              intro y hy
              simp at hy
              exact hacc y hy

/-- C9 witness: the root loop skips a concrete no-op action, and a move the
loop commits on a well-behaved game is never a no-op. -/
theorem c9_witness :
    rootLoop gNoop toyH falseClock s0 1 [Dir.L] ⟨none, -10000, none⟩ 0 c0 =
      rootLoop gNoop toyH falseClock s0 1 [] ⟨none, -10000, none⟩ 0 c0 ∧
    ((rootLoop toyG toyH falseClock s0 1 [Dir.L] ⟨none, -10000, none⟩ 0 c0).1.depthMove =
        some Dir.L → (toyG.move s0 Dir.L).board ≠ s0.board) :=
  ⟨(c9_amended gNoop toyH falseClock s0 1).1 Dir.L [] _ 0 c0 rfl,
   fun hx => (c9_amended toyG toyH falseClock s0 1).2 [Dir.L] _ 0 c0 Dir.L
     (by intro y hy; exact absurd hy (by simp)) hx⟩

/-- C5 amended: a game-over state returns its score from both players before
any expansion; but the defensive fallbacks differ from the claim: a Max node
with no legal actions on a state that is not game over returns the loop seed
-10000, and a Chance node with no placement outcomes on a state that is not
game over returns the loop seed 1000000 — neither returns the score. -/
theorem c5_amended (g : Game) (h : GameState → ℚ) (clock : Nat → Bool)
    (depth d : Nat) (s : GameState) (alpha beta : Option ℚ) (t : Nat) (c : Counters) :
    (g.gameOver s = true →
      (maxPlayer g h clock depth s alpha beta t c).1 = some s.score ∧
      (minPlayer g h clock depth s alpha beta t c).1 = some s.score) ∧
    (g.gameOver s = false → g.actions s = [] →
      (maxPlayer g h clock (d + 1) s alpha beta t c).1 = some (-10000)) ∧
    (g.gameOver s = false → g.possibleTiles s = [] →
      (minPlayer g h clock (d + 1) s alpha beta t c).1 = some 1000000) := by
  refine ⟨fun hgo => ⟨?_, ?_⟩, fun hgo hA => ?_, fun hgo hP => ?_⟩
  · rw [maxPlayer.eq_def]; simp [hgo]
  · rw [minPlayer.eq_def]; simp [hgo]
  · have hmo : moveOrder g s = [] := (moveOrder_nil_iff g s).mpr hA
    rw [maxPlayer.eq_def]
    simp [hgo, hmo, maxLoop]
  · rw [minPlayer.eq_def]
    simp [hgo, hP, minLoop]

/-- C5 counterexample: a full-board chance node that is not game over (a merge
is still available) returns 1000000, not the state score. -/
theorem c5_counterexample :
    gEmptyTiles.gameOver sFull = false ∧
    gEmptyTiles.possibleTiles sFull = [] ∧
    sFull.score = 0 ∧
    (minPlayer gEmptyTiles toyH trueClock 1 sFull none none 0 c0).1 = some 1000000 ∧
    (minPlayer gEmptyTiles toyH trueClock 1 sFull none none 0 c0).1 ≠ some sFull.score := by
  refine ⟨rfl, rfl, rfl, ?_, ?_⟩ <;>
    norm_num [minPlayer, minLoop, gEmptyTiles, trueClock, sFull]

/-- C5 witness: the amended statement applied to concrete games realizing each
of its three branches. -/
theorem c5_witness :
    ((maxPlayer gTerm toyH trueClock 2 sFull none none 0 c0).1 = some sFull.score ∧
      (minPlayer gTerm toyH trueClock 2 sFull none none 0 c0).1 = some sFull.score) ∧
    (maxPlayer gNoAct toyH trueClock 1 sFull none none 0 c0).1 = some (-10000) ∧
    (minPlayer gEmptyTiles toyH trueClock 1 sFull none none 0 c0).1 = some 1000000 :=
  ⟨(c5_amended gTerm toyH trueClock 2 0 sFull none none 0 c0).1 rfl,
   (c5_amended gNoAct toyH trueClock 1 0 sFull none none 0 c0).2.1 rfl rfl,
   (c5_amended gEmptyTiles toyH trueClock 1 0 sFull none none 0 c0).2.2 rfl rfl⟩

theorem insertDesc_sorted {α : Type} (key : α → ℚ) (x : α) (l : List α)
    (hl : l.Sorted (fun a b => key b ≤ key a)) :
    (insertDesc key x l).Sorted (fun a b => key b ≤ key a) := by
  induction l with
  | nil => simp [insertDesc]
  | cons y ys ih =>
    simp only [insertDesc]
    rw [List.sorted_cons] at hl
    obtain ⟨hy, hys⟩ := hl
    split
    case isTrue hxy =>
      rw [List.sorted_cons]
      refine ⟨?_, List.sorted_cons.mpr ⟨hy, hys⟩⟩
      intro b hb
      rcases List.mem_cons.mp hb with hb | hb
      · rw [hb]; exact hxy
      · exact le_trans (hy b hb) hxy
    case isFalse hxy =>
      rw [List.sorted_cons]
      refine ⟨?_, ih hys⟩
      intro b hb
      rcases List.mem_cons.mp ((insertDesc_perm key x ys).mem_iff.mp hb) with hb | hb
      · rw [hb]; exact le_of_lt (lt_of_not_le hxy)
      · exact hy b hb

theorem sortDesc_sorted {α : Type} (key : α → ℚ) (l : List α) :
    (sortDesc key l).Sorted (fun a b => key b ≤ key a) := by
  induction l with
  | nil => simp [sortDesc]
  | cons x xs ih => exact insertDesc_sorted key x (sortDesc key xs) ih

theorem insertDesc_filter_pos {α : Type} (key : α → ℚ) (q : ℚ) (x : α) (l : List α)
    (hx : key x = q) :
    (insertDesc key x l).filter (fun z => decide (key z = q)) =
      x :: l.filter (fun z => decide (key z = q)) := by
  induction l with
  | nil => simp [insertDesc, hx]
  | cons y ys ih =>
    simp only [insertDesc]
    split
    case isTrue hxy => simp [List.filter_cons, hx]
    case isFalse hxy =>
      have hy : ¬ (key y = q) := by
        rw [← hx]
        intro hh
        exact hxy (le_of_eq hh)
      simp [List.filter_cons, hy, ih]

theorem insertDesc_filter_neg {α : Type} (key : α → ℚ) (q : ℚ) (x : α) (l : List α)
    (hx : ¬ (key x = q)) :
    (insertDesc key x l).filter (fun z => decide (key z = q)) =
      l.filter (fun z => decide (key z = q)) := by
  induction l with
  | nil => simp [insertDesc, hx]
  | cons y ys ih =>
    simp only [insertDesc]
    split
    case isTrue hxy => simp [List.filter_cons, hx]
    case isFalse hxy => simp [List.filter_cons, ih]

theorem sortDesc_filter {α : Type} (key : α → ℚ) (q : ℚ) (l : List α) :
    (sortDesc key l).filter (fun z => decide (key z = q)) =
      l.filter (fun z => decide (key z = q)) := by
  induction l with
  | nil => rfl
  | cons x xs ih =>
    simp only [sortDesc]
    by_cases hx : key x = q
    · rw [insertDesc_filter_pos key q x _ hx, ih]
      simp [List.filter_cons, hx]
    · rw [insertDesc_filter_neg key q x _ hx, ih]
      simp [List.filter_cons, hx]

theorem snd_of_mem_pair {α β : Type} (k : α → β) (L : List α) (z : α × β)
    (hz : z ∈ L.map (fun a => (a, k a))) : z.2 = k z.1 := by
  rcases List.mem_map.mp hz with ⟨x, _, hx⟩
  rw [← hx]

/-- C6 amended: moveOrder returns a permutation of the legal actions sorted by
descending gradient score of the speculatively applied action (the dot product
with the fixed 4x4 weight matrix, not score + emptyCells * emptyTileWeight),
with ties kept in original enumeration order (stable sort); it is a pure
function of the input state. -/
theorem c6_amended (g : Game) (s : GameState) :
    (moveOrder g s).Perm (g.actions s) ∧
    ((moveOrder g s).map (fun a => gradient_score (g.move s a).board)).Sorted (· ≥ ·) ∧
    (∀ q : ℚ,
      (moveOrder g s).filter (fun a => decide (gradient_score (g.move s a).board = q)) =
      (g.actions s).filter (fun a => decide (gradient_score (g.move s a).board = q))) := by
  refine ⟨moveOrder_perm g s, ?_, ?_⟩
  · unfold moveOrder
    rw [List.map_map]
    refine List.pairwise_map.mpr ?_
    have hs := sortDesc_sorted (fun x : Dir × ℚ => x.2)
      ((g.actions s).map (fun a => (a, gradient_score (g.move s a).board)))
    refine hs.imp_of_mem ?_
    intro a b ha hb hab
    have ha2 := snd_of_mem_pair (fun a => gradient_score (g.move s a).board) (g.actions s) a
      ((sortDesc_perm _ _).mem_iff.mp ha)
    have hb2 := snd_of_mem_pair (fun a => gradient_score (g.move s a).board) (g.actions s) b
      ((sortDesc_perm _ _).mem_iff.mp hb)
    dsimp only at ha2 hb2
    show gradient_score (g.move s b.1).board ≤ gradient_score (g.move s a.1).board
    rw [← ha2, ← hb2]
    exact hab
  · intro q
    unfold moveOrder
    have hmf := map_fst_pair (fun a => gradient_score (g.move s a).board) (g.actions s)
    conv_rhs => rw [← hmf]
    rw [List.filter_map, List.filter_map]
    congr 1
    have h1 : ∀ z ∈ sortDesc (fun x : Dir × ℚ => x.2)
        ((g.actions s).map (fun a => (a, gradient_score (g.move s a).board))),
        ((fun a => decide (gradient_score (g.move s a).board = q)) ∘ fun x : Dir × ℚ => x.1) z =
          (fun z : Dir × ℚ => decide (z.2 = q)) z := by
      intro z hz
      have hz2 := snd_of_mem_pair (fun a => gradient_score (g.move s a).board) (g.actions s) z
        ((sortDesc_perm _ _).mem_iff.mp hz)
      simp only [Function.comp]
      exact decide_eq_decide.mpr (by rw [hz2])
    have h2 : ∀ z ∈ (g.actions s).map (fun a => (a, gradient_score (g.move s a).board)),
        ((fun a => decide (gradient_score (g.move s a).board = q)) ∘ fun x : Dir × ℚ => x.1) z =
          (fun z : Dir × ℚ => decide (z.2 = q)) z := by
      intro z hz
      have hz2 := snd_of_mem_pair (fun a => gradient_score (g.move s a).board) (g.actions s) z hz
      simp only [Function.comp]
      exact decide_eq_decide.mpr (by rw [hz2])
    rw [List.filter_congr h1, List.filter_congr h2]
    exact sortDesc_filter (fun x : Dir × ℚ => x.2) q _

/-- C6 counterexample: on a concrete state the source move orderer (gradient
dot product) and the orderer the specification describes (resulting score plus
empty cells times max(16, maxTileValue / 8)) produce different orders. -/
theorem c6_counterexample :
    moveOrder gOrder s0 = [Dir.R, Dir.L] ∧
    specMoveOrder gOrder s0 = [Dir.L, Dir.R] ∧
    moveOrder gOrder s0 ≠ specMoveOrder gOrder s0 := by
  have h1 : moveOrder gOrder s0 = [Dir.R, Dir.L] := by
    norm_num [moveOrder, gOrder, s0, sortDesc, insertDesc, gradient_score, tile_weights,
      List.range_succ]
  have h2 : specMoveOrder gOrder s0 = [Dir.L, Dir.R] := by
    norm_num [specMoveOrder, gOrder, s0, sortDesc, insertDesc, specOrderScore, boardMax]
  refine ⟨h1, h2, ?_⟩
  rw [h1, h2]
  simp

/-- C6 witness: the amended ordering contract evaluated on the counterexample
game. -/
theorem c6_witness :
    (moveOrder gOrder s0).Perm (gOrder.actions s0) ∧
    (moveOrder gOrder s0).filter
        (fun a => decide (gradient_score (gOrder.move s0 a).board = 4)) =
      (gOrder.actions s0).filter
        (fun a => decide (gradient_score (gOrder.move s0 a).board = 4)) :=
  ⟨(c6_amended gOrder s0).1, (c6_amended gOrder s0).2.2 4⟩

mutual

theorem maxPlayer_cc (g : Game) (h : GameState → ℚ) (clock : Nat → Bool)
    (depth : Nat) (state : GameState) (alpha beta : Option ℚ) (t : Nat) (c c' : Counters) :
    (maxPlayer g h clock depth state alpha beta t c).1 =
      (maxPlayer g h clock depth state alpha beta t c').1 ∧
    (maxPlayer g h clock depth state alpha beta t c).2.1 =
      (maxPlayer g h clock depth state alpha beta t c').2.1 := by
  cases depth with
  | zero =>
    rw [maxPlayer.eq_def, maxPlayer.eq_def]
    dsimp only
    split
    · exact ⟨rfl, rfl⟩
    · exact ⟨rfl, rfl⟩
  | succ d =>
    rw [maxPlayer.eq_def, maxPlayer.eq_def]
    dsimp only
    split
    · exact ⟨rfl, rfl⟩
    · exact maxLoop_cc g h clock d state (moveOrder g state) (-10000) alpha beta t _ _
termination_by (depth, 0)

theorem maxLoop_cc (g : Game) (h : GameState → ℚ) (clock : Nat → Bool)
    (d : Nat) (state : GameState) (l : List Dir) (best : ℚ)
    (alpha beta : Option ℚ) (t : Nat) (c c' : Counters) :
    (maxLoop g h clock d state l best alpha beta t c).1 =
      (maxLoop g h clock d state l best alpha beta t c').1 ∧
    (maxLoop g h clock d state l best alpha beta t c).2.1 =
      (maxLoop g h clock d state l best alpha beta t c').2.1 := by
  cases l with
  | nil =>
    rw [maxLoop.eq_def, maxLoop.eq_def]
    exact ⟨rfl, rfl⟩
  | cons a rest =>
    rw [maxLoop.eq_def, maxLoop.eq_def]
    dsimp only
    by_cases hck : clock t = false
    · rw [if_pos hck, if_pos hck]
      exact ⟨rfl, rfl⟩
    · rw [if_neg hck, if_neg hck]
      have hmm := minPlayer_cc g h clock d (g.move state a) alpha beta (t + 1) c c'
      rcases h1 : minPlayer g h clock d (g.move state a) alpha beta (t + 1) c with ⟨r, t2, c2⟩
      rcases h2 : minPlayer g h clock d (g.move state a) alpha beta (t + 1) c' with ⟨r', t2', c2'⟩
      rw [h1, h2] at hmm
      obtain ⟨hr, ht⟩ := hmm
      dsimp only at hr ht
      subst hr
      subst ht
      cases r with
      | none => exact ⟨rfl, rfl⟩
      | some v =>
        dsimp only
        by_cases hab : abGe (amax alpha (if v > best then v else best)) beta = true
        · simp only [if_pos hab]
          trivial
        · simp only [if_neg hab]
          exact maxLoop_cc g h clock d state rest _ _ beta t2 c2 c2'
termination_by (d, l.length + 1)

theorem minPlayer_cc (g : Game) (h : GameState → ℚ) (clock : Nat → Bool)
    (depth : Nat) (state : GameState) (alpha beta : Option ℚ) (t : Nat) (c c' : Counters) :
    (minPlayer g h clock depth state alpha beta t c).1 =
      (minPlayer g h clock depth state alpha beta t c').1 ∧
    (minPlayer g h clock depth state alpha beta t c).2.1 =
      (minPlayer g h clock depth state alpha beta t c').2.1 := by
  cases depth with
  | zero =>
    rw [minPlayer.eq_def, minPlayer.eq_def]
    dsimp only
    split
    · exact ⟨rfl, rfl⟩
    · exact ⟨rfl, rfl⟩
  | succ d =>
    rw [minPlayer.eq_def, minPlayer.eq_def]
    dsimp only
    split
    · exact ⟨rfl, rfl⟩
    · exact minLoop_cc g h clock d state (g.possibleTiles state) 1000000 alpha beta t _ _
termination_by (depth, 0)

theorem minLoop_cc (g : Game) (h : GameState → ℚ) (clock : Nat → Bool)
    (d : Nat) (state : GameState) (l : List (Nat × Nat)) (best : ℚ)
    (alpha beta : Option ℚ) (t : Nat) (c c' : Counters) :
    (minLoop g h clock d state l best alpha beta t c).1 =
      (minLoop g h clock d state l best alpha beta t c').1 ∧
    (minLoop g h clock d state l best alpha beta t c).2.1 =
      (minLoop g h clock d state l best alpha beta t c').2.1 := by
  cases l with
  | nil =>
    rw [minLoop.eq_def, minLoop.eq_def]
    exact ⟨rfl, rfl⟩
  | cons pv rest =>
    rw [minLoop.eq_def, minLoop.eq_def]
    dsimp only
    by_cases hck : clock t = false
    · rw [if_pos hck, if_pos hck]
      exact ⟨rfl, rfl⟩
    · rw [if_neg hck, if_neg hck]
      have hmm := maxPlayer_cc g h clock d (g.addTile state pv.1 pv.2) alpha beta (t + 1) c c'
      rcases h1 : maxPlayer g h clock d (g.addTile state pv.1 pv.2) alpha beta (t + 1) c with ⟨r, t2, c2⟩
      rcases h2 : maxPlayer g h clock d (g.addTile state pv.1 pv.2) alpha beta (t + 1) c' with ⟨r', t2', c2'⟩
      rw [h1, h2] at hmm
      obtain ⟨hr, ht⟩ := hmm
      dsimp only at hr ht
      subst hr
      subst ht
      cases r with
      | none => exact ⟨rfl, rfl⟩
      | some v =>
        dsimp only
        by_cases hab : abGe alpha (bmin beta (if v < best then v else best)) = true
        · simp only [if_pos hab]
          trivial
        · simp only [if_neg hab]
          exact minLoop_cc g h clock d state rest _ alpha _ t2 c2 c2'
termination_by (d, l.length + 1)

end

theorem rootLoop_cc (g : Game) (h : GameState → ℚ) (clock : Nat → Bool)
    (state : GameState) (depth : Nat) (l : List Dir) (acc : LoopAcc)
    (t : Nat) (c c' : Counters) :
    (rootLoop g h clock state depth l acc t c).1 =
      (rootLoop g h clock state depth l acc t c').1 ∧
    (rootLoop g h clock state depth l acc t c).2.1 =
      (rootLoop g h clock state depth l acc t c').2.1 := by
  induction l generalizing acc t c c' with
  | nil => exact ⟨rfl, rfl⟩
  | cons a rest ih =>
    rw [rootLoop, rootLoop]
    by_cases hnoop : (g.move state a).board = state.board
    · rw [if_pos hnoop, if_pos hnoop]
      exact ih acc t c c'
    · rw [if_neg hnoop, if_neg hnoop]
      by_cases hck : clock t = false
      · rw [if_pos hck, if_pos hck]
        exact ⟨rfl, rfl⟩
      · rw [if_neg hck, if_neg hck]
        have hmm := minPlayer_cc g h clock (depth - 1) (g.move state a) acc.alpha none (t + 1) c c'
        rcases h1 : minPlayer g h clock (depth - 1) (g.move state a) acc.alpha none (t + 1) c with ⟨r, t2, c2⟩
        rcases h2 : minPlayer g h clock (depth - 1) (g.move state a) acc.alpha none (t + 1) c' with ⟨r', t2', c2'⟩
        rw [h1, h2] at hmm
        obtain ⟨hr, ht⟩ := hmm
        dsimp only at hr ht
        subst hr
        subst ht
        cases r with
        | none => exact ⟨rfl, rfl⟩
        | some v => exact ih _ t2 c2 c2'

theorem findMoveLoop_cc (g : Game) (h : GameState → ℚ) (clock : Nat → Bool)
    (state : GameState) (actions : List Dir) (fuel : Nat) :
    ∀ depth bm bs t mv (c c' : Counters),
    (findMoveLoop g h clock state actions fuel depth bm bs ⟨c, mv, t⟩).move =
      (findMoveLoop g h clock state actions fuel depth bm bs ⟨c', mv, t⟩).move ∧
    (findMoveLoop g h clock state actions fuel depth bm bs ⟨c, mv, t⟩).t =
      (findMoveLoop g h clock state actions fuel depth bm bs ⟨c', mv, t⟩).t := by
  induction fuel with
  | zero => exact fun _ _ _ _ _ _ _ => ⟨rfl, rfl⟩
  | succ fuel ih =>
    intro depth bm bs t mv c c'
    rw [findMoveLoop, findMoveLoop]
    dsimp only
    by_cases hck : clock t = false
    · rw [if_pos hck, if_pos hck]
      exact ⟨rfl, rfl⟩
    · rw [if_neg hck, if_neg hck]
      have hrl := rootLoop_cc g h clock state depth actions
        ⟨none, -10000, none⟩ (t + 1)
        { c with depthCount := c.depthCount + 1 } { c' with depthCount := c'.depthCount + 1 }
      rcases h1 : rootLoop g h clock state depth actions ⟨none, -10000, none⟩ (t + 1)
        { c with depthCount := c.depthCount + 1 } with ⟨acc, t2, c2⟩
      rcases h2 : rootLoop g h clock state depth actions ⟨none, -10000, none⟩ (t + 1)
        { c' with depthCount := c'.depthCount + 1 } with ⟨acc', t2', c2'⟩
      rw [h1, h2] at hrl
      obtain ⟨hacc, ht⟩ := hrl
      dsimp only at hacc ht
      subst hacc
      subst ht
      cases hdm : acc.depthMove with
      | some m => exact ih (depth + 1) m acc.depthScore t2 (some m) c2 c2'
      | none => exact ih (depth + 1) bm bs t2 mv c2 c2'

/-- C8: the committed move of findMove does not depend on the initial values
of the instrumentation counters nor on the previously committed move: with the
same state and the same deadline clock, two calls commit the same action (the
engine is deterministic and the counters are reporting-only). -/
theorem c8_thm (g : Game) (h : GameState → ℚ) (clock : Nat → Bool) (fuel : Nat)
    (state : GameState) (t : Nat) (c1 c2 : Counters) (m1 m2 : Option Dir) :
    (findMove g h clock fuel state ⟨c1, m1, t⟩).move =
      (findMove g h clock fuel state ⟨c2, m2, t⟩).move := by
  unfold findMove
  cases hmo : moveOrder g state with
  | nil => rfl
  | cons a0 rest =>
    exact (findMoveLoop_cc g h clock state (a0 :: rest) fuel 1 a0 (-10000) t (some a0)
      { c1 with count := c1.count + 1 } { c2 with count := c2.count + 1 }).1

mutual

theorem maxPlayer_cnt (g : Game) (h : GameState → ℚ) (clock : Nat → Bool)
    (depth : Nat) (state : GameState) (alpha beta : Option ℚ) (t : Nat) (c : Counters) :
    (maxPlayer g h clock depth state alpha beta t c).2.2.count = c.count ∧
    c.parentCount ≤ (maxPlayer g h clock depth state alpha beta t c).2.2.parentCount := by
  cases depth with
  | zero =>
    rw [maxPlayer.eq_def]
    dsimp only
    split
    · exact ⟨rfl, le_refl _⟩
    · exact ⟨rfl, le_refl _⟩
  | succ d =>
    rw [maxPlayer.eq_def]
    dsimp only
    split
    · exact ⟨rfl, le_refl _⟩
    · have hl := maxLoop_cnt g h clock d state (moveOrder g state) (-10000) alpha beta t
        { nodeCount := c.nodeCount + 1, parentCount := c.parentCount + 1,
          childCount := c.childCount + 1, depthCount := c.depthCount,
          count := c.count, pruneCount := c.pruneCount }
      exact ⟨hl.1, le_trans (Nat.le_succ _) hl.2⟩
termination_by (depth, 0)

theorem maxLoop_cnt (g : Game) (h : GameState → ℚ) (clock : Nat → Bool)
    (d : Nat) (state : GameState) (l : List Dir) (best : ℚ)
    (alpha beta : Option ℚ) (t : Nat) (c : Counters) :
    (maxLoop g h clock d state l best alpha beta t c).2.2.count = c.count ∧
    c.parentCount ≤ (maxLoop g h clock d state l best alpha beta t c).2.2.parentCount := by
  cases l with
  | nil =>
    rw [maxLoop.eq_def]
    exact ⟨rfl, le_refl _⟩
  | cons a rest =>
    rw [maxLoop.eq_def]
    dsimp only
    by_cases hck : clock t = false
    · rw [if_pos hck]
      exact ⟨rfl, le_refl _⟩
    · rw [if_neg hck]
      have hmm := minPlayer_cnt g h clock d (g.move state a) alpha beta (t + 1) c
      rcases h1 : minPlayer g h clock d (g.move state a) alpha beta (t + 1) c with ⟨r, t2, c2⟩
      rw [h1] at hmm
      dsimp only at hmm
      cases r with
      | none => exact hmm
      | some v =>
        dsimp only
        by_cases hab : abGe (amax alpha (if v > best then v else best)) beta = true
        · simp only [if_pos hab]
          exact hmm
        · simp only [if_neg hab]
          have hl := maxLoop_cnt g h clock d state rest (if v > best then v else best)
            (amax alpha (if v > best then v else best)) beta t2 c2
          exact ⟨hmm.1 ▸ hl.1, le_trans hmm.2 hl.2⟩
termination_by (d, l.length + 1)

theorem minPlayer_cnt (g : Game) (h : GameState → ℚ) (clock : Nat → Bool)
    (depth : Nat) (state : GameState) (alpha beta : Option ℚ) (t : Nat) (c : Counters) :
    (minPlayer g h clock depth state alpha beta t c).2.2.count = c.count ∧
    c.parentCount ≤ (minPlayer g h clock depth state alpha beta t c).2.2.parentCount := by
  cases depth with
  | zero =>
    rw [minPlayer.eq_def]
    dsimp only
    split
    · exact ⟨rfl, le_refl _⟩
    · exact ⟨rfl, le_refl _⟩
  | succ d =>
    rw [minPlayer.eq_def]
    dsimp only
    split
    · exact ⟨rfl, le_refl _⟩
    · have hl := minLoop_cnt g h clock d state (g.possibleTiles state) 1000000 alpha beta t
        { nodeCount := c.nodeCount + 1, parentCount := c.parentCount + 1,
          childCount := c.childCount + 1, depthCount := c.depthCount,
          count := c.count, pruneCount := c.pruneCount }
      exact ⟨hl.1, le_trans (Nat.le_succ _) hl.2⟩
termination_by (depth, 0)

theorem minLoop_cnt (g : Game) (h : GameState → ℚ) (clock : Nat → Bool)
    (d : Nat) (state : GameState) (l : List (Nat × Nat)) (best : ℚ)
    (alpha beta : Option ℚ) (t : Nat) (c : Counters) :
    (minLoop g h clock d state l best alpha beta t c).2.2.count = c.count ∧
    c.parentCount ≤ (minLoop g h clock d state l best alpha beta t c).2.2.parentCount := by
  cases l with
  | nil =>
    rw [minLoop.eq_def]
    exact ⟨rfl, le_refl _⟩
  | cons pv rest =>
    rw [minLoop.eq_def]
    dsimp only
    by_cases hck : clock t = false
    · rw [if_pos hck]
      exact ⟨rfl, le_refl _⟩
    · rw [if_neg hck]
      have hmm := maxPlayer_cnt g h clock d (g.addTile state pv.1 pv.2) alpha beta (t + 1) c
      rcases h1 : maxPlayer g h clock d (g.addTile state pv.1 pv.2) alpha beta (t + 1) c with ⟨r, t2, c2⟩
      rw [h1] at hmm
      dsimp only at hmm
      cases r with
      | none => exact hmm
      | some v =>
        dsimp only
        by_cases hab : abGe alpha (bmin beta (if v < best then v else best)) = true
        · simp only [if_pos hab]
          exact hmm
        · simp only [if_neg hab]
          have hl := minLoop_cnt g h clock d state rest (if v < best then v else best)
            alpha (bmin beta (if v < best then v else best)) t2 c2
          exact ⟨hmm.1 ▸ hl.1, le_trans hmm.2 hl.2⟩
termination_by (d, l.length + 1)

end

theorem rootLoop_cnt (g : Game) (h : GameState → ℚ) (clock : Nat → Bool)
    (state : GameState) (depth : Nat) (l : List Dir) (acc : LoopAcc)
    (t : Nat) (c : Counters) :
    (rootLoop g h clock state depth l acc t c).2.2.count = c.count ∧
    c.parentCount ≤ (rootLoop g h clock state depth l acc t c).2.2.parentCount := by
  induction l generalizing acc t c with
  | nil => exact ⟨rfl, le_refl _⟩
  | cons a rest ih =>
    rw [rootLoop]
    by_cases hnoop : (g.move state a).board = state.board
    · rw [if_pos hnoop]
      exact ih acc t c
    · rw [if_neg hnoop]
      by_cases hck : clock t = false
      · rw [if_pos hck]
        exact ⟨rfl, le_refl _⟩
      · rw [if_neg hck]
        have hmm := minPlayer_cnt g h clock (depth - 1) (g.move state a) acc.alpha none (t + 1) c
        rcases h1 : minPlayer g h clock (depth - 1) (g.move state a) acc.alpha none (t + 1) c with
          ⟨r, t2, c2⟩
        rw [h1] at hmm
        dsimp only at hmm
        cases r with
        | none => exact hmm
        | some v =>
          dsimp only
          exact ⟨hmm.1 ▸ (ih _ t2 c2).1, le_trans hmm.2 (ih _ t2 c2).2⟩

theorem findMoveLoop_cnt (g : Game) (h : GameState → ℚ) (clock : Nat → Bool)
    (state : GameState) (actions : List Dir) (fuel : Nat) :
    ∀ depth bm bs (st : PState),
    (findMoveLoop g h clock state actions fuel depth bm bs st).ctr.count = st.ctr.count ∧
    st.ctr.parentCount ≤ (findMoveLoop g h clock state actions fuel depth bm bs st).ctr.parentCount := by
  induction fuel with
  | zero => exact fun _ _ _ _ => ⟨rfl, le_refl _⟩
  | succ fuel ih =>
    intro depth bm bs st
    rw [findMoveLoop]
    dsimp only
    by_cases hck : clock st.t = false
    · rw [if_pos hck]
      exact ⟨rfl, le_refl _⟩
    · rw [if_neg hck]
      have hrl := rootLoop_cnt g h clock state depth actions ⟨none, -10000, none⟩ (st.t + 1)
        { st.ctr with depthCount := st.ctr.depthCount + 1 }
      rcases h1 : rootLoop g h clock state depth actions ⟨none, -10000, none⟩ (st.t + 1)
        { st.ctr with depthCount := st.ctr.depthCount + 1 } with ⟨acc, t2, c2⟩
      rw [h1] at hrl
      dsimp only at hrl
      cases hdm : acc.depthMove with
      | some m =>
        have hl := ih (depth + 1) m acc.depthScore ⟨c2, some m, t2⟩
        exact ⟨hrl.1 ▸ hl.1, le_trans hrl.2 hl.2⟩
      | none =>
        have hl := ih (depth + 1) bm bs { st with ctr := c2, t := t2 }
        exact ⟨hrl.1 ▸ hl.1, le_trans hrl.2 hl.2⟩

/-- C10: stats fails (the divisions raise ZeroDivisionError, modelled as none)
exactly when the per-move counter or the parent counter is zero; findMove
increments the per-move counter on every call and never decreases the parent
counter, so stats is total only after at least one findMove whose search
expanded at least one parent node. -/
theorem c10_thm :
    (∀ c : Counters, stats c = none ↔ (c.count = 0 ∨ c.parentCount = 0)) ∧
    (∀ (g : Game) (h : GameState → ℚ) (clock : Nat → Bool) (fuel : Nat)
      (state : GameState) (st : PState),
      (findMove g h clock fuel state st).ctr.count = st.ctr.count + 1 ∧
      st.ctr.parentCount ≤ (findMove g h clock fuel state st).ctr.parentCount) := by
  constructor
  · intro c
    unfold stats
    by_cases h1 : c.count = 0
    · simp [h1]
    · by_cases h2 : c.parentCount = 0
      · simp [h1, h2]
      · simp [h1, h2]
  · intro g h clock fuel state st
    unfold findMove
    cases hmo : moveOrder g state with
    | nil => exact ⟨rfl, le_refl _⟩
    | cons a0 rest =>
      have hl := findMoveLoop_cnt g h clock state (a0 :: rest) fuel 1 a0 (-10000)
        ⟨{ st.ctr with count := st.ctr.count + 1 }, some a0, st.t ⟩
      exact ⟨hl.1, hl.2⟩

theorem rootLoop_move_mem (g : Game) (h : GameState → ℚ) (clock : Nat → Bool)
    (state : GameState) (depth : Nat) (l : List Dir) (acc : LoopAcc)
    (t : Nat) (c : Counters) (x : Dir)
    (hres : (rootLoop g h clock state depth l acc t c).1.depthMove = some x) :
    x ∈ l ∨ acc.depthMove = some x := by
  induction l generalizing acc t c with
  | nil =>
    right
    exact hres
  | cons a rest ih =>
    rw [rootLoop] at hres
    by_cases hnoop : (g.move state a).board = state.board
    · rw [if_pos hnoop] at hres
      rcases ih acc t c hres with hm | hm
      · exact Or.inl (List.mem_cons_of_mem a hm)
      · exact Or.inr hm
    · rw [if_neg hnoop] at hres
      by_cases hck : clock t = false
      · rw [if_pos hck] at hres
        exact Or.inr hres
      · rw [if_neg hck] at hres
        rcases hmp : minPlayer g h clock (depth - 1) (g.move state a) acc.alpha none (t + 1) c with
          ⟨r, t2, c2⟩
        rw [hmp] at hres
        cases r with
        | none => exact Or.inr hres
        | some v =>
          dsimp only at hres
          rcases ih _ t2 c2 hres with hm | hm
          · exact Or.inl (List.mem_cons_of_mem a hm)
          · by_cases hgt : v > acc.depthScore
            · simp only [if_pos hgt] at hm
              have : a = x := by simpa using hm
              exact Or.inl (this ▸ List.mem_cons_self a rest)
            · simp only [if_neg hgt] at hm
              exact Or.inr hm

theorem rootLoop_dead (g : Game) (h : GameState → ℚ) (clock : Nat → Bool)
    (state : GameState) (depth : Nat) (l : List Dir) (acc : LoopAcc)
    (t : Nat) (c : Counters) (hdead : ∀ u, t ≤ u → clock u = false) :
    rootLoop g h clock state depth l acc t c = (acc, t, c) ∨
    rootLoop g h clock state depth l acc t c = (acc, t + 1, c) := by
  induction l with
  | nil => exact Or.inl rfl
  | cons a rest ih =>
    rw [rootLoop]
    by_cases hnoop : (g.move state a).board = state.board
    · rw [if_pos hnoop]
      exact ih
    · rw [if_neg hnoop]
      rw [if_pos (hdead t (le_refl t))]
      exact Or.inr rfl

theorem findMoveLoop_dead (g : Game) (h : GameState → ℚ) (clock : Nat → Bool)
    (state : GameState) (actions : List Dir) (fuel depth : Nat) (bm : Dir) (bs : ℚ)
    (st : PState) (hdead : ∀ u, st.t ≤ u → clock u = false) :
    (findMoveLoop g h clock state actions fuel depth bm bs st).move = st.move := by
  cases fuel with
  | zero => rfl
  | succ fuel =>
    rw [findMoveLoop]
    rw [if_pos (hdead st.t (le_refl _))]

theorem findMoveLoop_move (g : Game) (h : GameState → ℚ) (clock : Nat → Bool)
    (state : GameState) (actions : List Dir) (fuel : Nat) :
    ∀ depth bm bs (st : PState),
    (findMoveLoop g h clock state actions fuel depth bm bs st).move = st.move ∨
    ∃ m, m ∈ actions ∧ (findMoveLoop g h clock state actions fuel depth bm bs st).move = some m := by
  induction fuel with
  | zero => exact fun _ _ _ _ => Or.inl rfl
  | succ fuel ih =>
    intro depth bm bs st
    rw [findMoveLoop]
    dsimp only
    by_cases hck : clock st.t = false
    · rw [if_pos hck]
      exact Or.inl rfl
    · rw [if_neg hck]
      rcases h1 : rootLoop g h clock state depth actions ⟨none, -10000, none⟩ (st.t + 1)
        { st.ctr with depthCount := st.ctr.depthCount + 1 } with ⟨acc, t2, c2⟩
      cases hdm : acc.depthMove with
      | some m =>
        have hmem : m ∈ actions := by
          have := rootLoop_move_mem g h clock state depth actions ⟨none, -10000, none⟩ (st.t + 1)
            { st.ctr with depthCount := st.ctr.depthCount + 1 } m (by rw [h1]; exact hdm)
          rcases this with hm | hm
          · exact hm
          · exact absurd hm (by simp)
        rcases ih (depth + 1) m acc.depthScore ⟨c2, some m, t2⟩ with hi | hi
        · exact Or.inr ⟨m, hmem, hi⟩
        · rcases hi with ⟨m', hm', hi⟩
          exact Or.inr ⟨m', hm', hi⟩
      | none =>
        rcases ih (depth + 1) bm bs { st with ctr := c2, t := t2 } with hi | hi
        · exact Or.inl hi
        · rcases hi with ⟨m', hm', hi⟩
          exact Or.inr ⟨m', hm', hi⟩

/-- C1: for a state with at least one legal action, the move committed by
findMove under any deadline clock (including one that is already expired) is a
legal action of the input state; and if the deadline has expired by the first
in-loop check, so that no root action of depth 1 completes, the committed move
is the move orderer's top candidate. -/
theorem c1_thm (g : Game) (h : GameState → ℚ) (clock : Nat → Bool) (fuel : Nat)
    (state : GameState) (st : PState) (hA : g.actions state ≠ []) :
    (∃ a, (findMove g h clock fuel state st).move = some a ∧ a ∈ g.actions state) ∧
    ((∀ u, st.t + 1 ≤ u → clock u = false) →
      (findMove g h clock fuel state st).move = (moveOrder g state).head?) := by
  have hmo : moveOrder g state ≠ [] := fun hm => hA ((moveOrder_nil_iff g state).mp hm)
  rcases hmoe : moveOrder g state with _ | ⟨a0, rest⟩
  · exact absurd hmoe hmo
  constructor
  · unfold findMove
    rw [hmoe]
    dsimp only
    have ha0 : a0 ∈ g.actions state := by
      rw [← mem_moveOrder, hmoe]
      exact List.mem_cons_self a0 rest
    rcases findMoveLoop_move g h clock state (a0 :: rest) fuel 1 a0 (-10000)
      ⟨{ st.ctr with count := st.ctr.count + 1 }, some a0, st.t⟩ with hi | hi
    · exact ⟨a0, hi, ha0⟩
    · rcases hi with ⟨m, hm, hi⟩
      refine ⟨m, hi, ?_⟩
      rw [← mem_moveOrder, hmoe]
      exact hm
  · intro hdead
    unfold findMove
    rw [hmoe]
    dsimp only
    by_cases hck : clock st.t = false
    · cases fuel with
      | zero => rfl
      | succ fuel =>
        rw [findMoveLoop]
        rw [if_pos hck]
        rfl
    · cases fuel with
      | zero => rfl
      | succ fuel =>
        rw [findMoveLoop]
        dsimp only
        rw [if_neg hck]
        rcases h1 : rootLoop g h clock state 1 (a0 :: rest) ⟨none, -10000, none⟩ (st.t + 1)
          { nodeCount := st.ctr.nodeCount, parentCount := st.ctr.parentCount,
            childCount := st.ctr.childCount, depthCount := st.ctr.depthCount + 1,
            count := st.ctr.count + 1, pruneCount := st.ctr.pruneCount } with ⟨acc, t2, c2⟩
        have hdd := rootLoop_dead g h clock state 1 (a0 :: rest) ⟨none, -10000, none⟩ (st.t + 1)
          { nodeCount := st.ctr.nodeCount, parentCount := st.ctr.parentCount,
            childCount := st.ctr.childCount, depthCount := st.ctr.depthCount + 1,
            count := st.ctr.count + 1, pruneCount := st.ctr.pruneCount } hdead
        have hacc : acc = ⟨none, -10000, none⟩ ∧ st.t + 1 ≤ t2 := by
          rcases hdd with hdd | hdd <;> rw [h1] at hdd <;>
            simp only [Prod.mk.injEq] at hdd
          · exact ⟨hdd.1, le_of_eq hdd.2.1.symm⟩
          · exact ⟨hdd.1, hdd.2.1 ▸ Nat.le_succ _⟩
        obtain ⟨haccv, ht2⟩ := hacc
        subst haccv
        dsimp only
        have hfin := findMoveLoop_dead g h clock state (a0 :: rest) fuel 2 a0 (-10000)
          ⟨c2, some a0, t2⟩ (fun u hu => hdead u (le_trans ht2 hu))
        simpa using hfin

/-- C1 witness: the legality and fallback guarantees applied to a concrete
game with two legal actions and an already-expired deadline. -/
theorem c1_witness :
    (∃ a, (findMove toyG toyH falseClock 3 s0 pst0).move = some a ∧ a ∈ toyG.actions s0) ∧
    ((∀ u, pst0.t + 1 ≤ u → falseClock u = false) →
      (findMove toyG toyH falseClock 3 s0 pst0).move = (moveOrder toyG s0).head?) :=
  c1_thm toyG toyH falseClock 3 s0 pst0 (by simp [toyG])

/-- C3: within one findMove call, first, a root action whose evaluation is
aborted by the deadline (minPlayer returns the abort marker none) leaves the
depth accumulator — best move, best score and alpha — exactly as it was and
stops the depth iteration; second, any move the root loop commits beyond its
input accumulator comes from a root action of the processed list whose
minPlayer evaluation at this depth completed with a value; third, a depth
iteration whose root loop commits nothing passes the previously committed
move unchanged into the next iteration. -/
theorem c3_thm (g : Game) (h : GameState → ℚ) (clock : Nat → Bool)
    (state : GameState) (depth : Nat) :
    (∀ a rest (acc : LoopAcc) t c t2 c2,
      (g.move state a).board ≠ state.board → clock t = true →
      minPlayer g h clock (depth - 1) (g.move state a) acc.alpha none (t + 1) c = (none, t2, c2) →
      rootLoop g h clock state depth (a :: rest) acc t c = (acc, t2, c2)) ∧
    (∀ l (acc : LoopAcc) t c x,
      (rootLoop g h clock state depth l acc t c).1.depthMove = some x →
      acc.depthMove = some x ∨
        (x ∈ l ∧ ∃ alpha t' c' v t2 c2,
          minPlayer g h clock (depth - 1) (g.move state x) alpha none t' c' = (some v, t2, c2))) ∧
    (∀ (actions : List Dir) fuel bm bs (st : PState) (acc : LoopAcc) t2 c2,
      clock st.t = true →
      rootLoop g h clock state depth actions ⟨none, -10000, none⟩ (st.t + 1)
          { st.ctr with depthCount := st.ctr.depthCount + 1 } = (acc, t2, c2) →
      acc.depthMove = none →
      findMoveLoop g h clock state actions (fuel + 1) depth bm bs st =
        findMoveLoop g h clock state actions fuel (depth + 1) bm bs
          { st with ctr := c2, t := t2 }) := by
  refine ⟨?_, ?_, ?_⟩
  · intro a rest acc t c t2 c2 hnoop hck hmp
    rw [rootLoop]
    rw [if_neg hnoop]
    rw [if_neg (by simp [hck] : ¬ clock t = false)]
    rw [hmp]
  · intro l
    induction l with
    | nil =>
      intro acc t c x hres
      exact Or.inl hres
    | cons a rest ih =>
      intro acc t c x hres
      rw [rootLoop] at hres
      by_cases hnoop : (g.move state a).board = state.board
      · rw [if_pos hnoop] at hres
        rcases ih acc t c x hres with hm | ⟨hmem, hev⟩
        · exact Or.inl hm
        · exact Or.inr ⟨List.mem_cons_of_mem a hmem, hev⟩
      · rw [if_neg hnoop] at hres
        by_cases hck : clock t = false
        · rw [if_pos hck] at hres
          exact Or.inl hres
        · rw [if_neg hck] at hres
          rcases hmp : minPlayer g h clock (depth - 1) (g.move state a) acc.alpha none (t + 1) c with
            ⟨r, t2, c2⟩
          rw [hmp] at hres
          cases r with
          | none => exact Or.inl hres
          | some v =>
            dsimp only at hres
            rcases ih _ t2 c2 x hres with hm | ⟨hmem, hev⟩
            · by_cases hgt : v > acc.depthScore
              · simp only [if_pos hgt] at hm
                have hax : a = x := by simpa using hm
                subst hax
                exact Or.inr ⟨List.mem_cons_self a rest,
                  acc.alpha, t + 1, c, v, t2, c2, hmp⟩
              · simp only [if_neg hgt] at hm
                exact Or.inl hm
            · exact Or.inr ⟨List.mem_cons_of_mem a hmem, hev⟩
  · intro actions fuel bm bs st acc t2 c2 hck hrl hdm
    rw [findMoveLoop]
    dsimp only
    rw [if_neg (by simp [hck] : ¬ clock st.t = false)]
    rw [hrl]
    dsimp only
    rw [hdm]

/-- C3 witness: the three parts of the commitment discipline applied at
concrete inputs: an aborted evaluation leaves the accumulator untouched, a
committed move has a completed evaluation, and an empty depth iteration
passes the committed move through unchanged. -/
theorem c3_witness :
    rootLoop toyG toyH clock1 s0 2 [Dir.L, Dir.R] ⟨none, -10000, none⟩ 0 c0 =
      (⟨none, -10000, none⟩, 2, ⟨1, 1, 1, 0, 0, 0⟩) ∧
    ((⟨none, -10000, none⟩ : LoopAcc).depthMove = some Dir.L ∨
      (Dir.L ∈ [Dir.L] ∧ ∃ alpha t' c' v t2 c2,
        minPlayer toyG toyH trueClock (1 - 1) (toyG.move s0 Dir.L) alpha none t' c' =
          (some v, t2, c2))) ∧
    findMoveLoop toyG toyH clock1 s0 [Dir.L, Dir.R] 2 1 Dir.L (-10000) pst0 =
      findMoveLoop toyG toyH clock1 s0 [Dir.L, Dir.R] 1 2 Dir.L (-10000)
        { pst0 with ctr := ⟨0, 0, 0, 1, 0, 0⟩, t := 2 } := by
  refine ⟨?_, ?_, ?_⟩
  · exact (c3_thm toyG toyH clock1 s0 2).1 Dir.L [Dir.R] ⟨none, -10000, none⟩ 0 c0 2
      ⟨1, 1, 1, 0, 0, 0⟩ (by simp [toyG, toyMove, s0]) (by simp [clock1])
      (by simp [minPlayer, minLoop, toyG, toyMove, clock1, c0, s0])
  · exact (c3_thm toyG toyH trueClock s0 1).2.1 [Dir.L] ⟨none, -10000, none⟩ 0 c0 Dir.L
      (by norm_num [rootLoop, minPlayer, minLoop, toyG, toyMove, trueClock, s0, c0, amax, toyH])
  · exact (c3_thm toyG toyH clock1 s0 1).2.2 [Dir.L, Dir.R] 1 Dir.L (-10000) pst0
      ⟨none, -10000, none⟩ 2 ⟨0, 0, 0, 1, 0, 0⟩ (by simp [clock1, pst0])
      (by simp [rootLoop, toyG, toyMove, clock1, s0, pst0, c0]) rfl

theorem ifMax (v b : ℚ) : (if v > b then v else b) = max b v := by
  split
  · exact (max_eq_right (le_of_lt (by assumption))).symm
  · exact (max_eq_left (le_of_not_lt (by assumption))).symm

theorem ifMin (v b : ℚ) : (if v < b then v else b) = min b v := by
  split
  · exact (min_eq_right (le_of_lt (by assumption))).symm
  · exact (min_eq_left (le_of_not_lt (by assumption))).symm

theorem abGe_amax (a : Option ℚ) (w : ℚ) (b : Option ℚ) :
    abGe (amax a w) b = true ↔ (abGe a b = true ∨ vGE w b) := by
  cases a with
  | none =>
    cases b with
    | none => simp [amax, abGe, vGE]
    | some y => simp [amax, abGe, vGE]
  | some x =>
    cases b with
    | none => simp [amax, abGe, vGE]
    | some y =>
      simp [amax, abGe, vGE, le_max_iff]

theorem abGe_bmin (a : Option ℚ) (w : ℚ) (b : Option ℚ) :
    abGe a (bmin b w) = true ↔ (abGe a b = true ∨ vLE w a) := by
  cases b with
  | none =>
    cases a with
    | none => simp [bmin, abGe, vLE]
    | some x => simp [bmin, abGe, vLE]
  | some y =>
    cases a with
    | none => simp [bmin, abGe, vLE]
    | some x =>
      simp [bmin, abGe, vLE, min_le_iff]

theorem foldl_max_seed_le (l : List ℚ) (s : ℚ) : s ≤ l.foldl max s := by
  induction l generalizing s with
  | nil => exact le_refl s
  | cons x xs ih => exact le_trans (le_max_left s x) (ih (max s x))

theorem foldl_max_le {l : List ℚ} {z : ℚ} (s : ℚ) (hs : s ≤ z) (hl : ∀ x ∈ l, x ≤ z) :
    l.foldl max s ≤ z := by
  induction l generalizing s with
  | nil => exact hs
  | cons x xs ih =>
    exact ih (max s x) (max_le hs (hl x (List.mem_cons_self x xs)))
      (fun y hy => hl y (List.mem_cons_of_mem x hy))

theorem foldl_max_lt {l : List ℚ} {z : ℚ} (s : ℚ) (hs : s < z) (hl : ∀ x ∈ l, x < z) :
    l.foldl max s < z := by
  induction l generalizing s with
  | nil => exact hs
  | cons x xs ih =>
    exact ih (max s x) (max_lt hs (hl x (List.mem_cons_self x xs)))
      (fun y hy => hl y (List.mem_cons_of_mem x hy))

theorem mem_le_foldl_max {l : List ℚ} {x : ℚ} (s : ℚ) (hx : x ∈ l) : x ≤ l.foldl max s := by
  induction l generalizing s with
  | nil => exact absurd hx (List.not_mem_nil x)
  | cons y ys ih =>
    rcases List.mem_cons.mp hx with hh | hh
    · subst hh
      exact le_trans (le_max_right s x) (foldl_max_seed_le ys (max s x))
    · exact ih (max s y) hh

theorem foldl_max_swap (l : List ℚ) (s x : ℚ) :
    l.foldl max (max s x) = max x (l.foldl max s) := by
  induction l generalizing s with
  | nil => exact max_comm s x
  | cons y ys ih =>
    show ys.foldl max (max (max s x) y) = max x (ys.foldl max (max s y))
    rw [sup_right_comm s x y]
    exact ih (max s y)

theorem foldl_max_perm {l1 l2 : List ℚ} (hp : l1.Perm l2) (s : ℚ) :
    l1.foldl max s = l2.foldl max s := by
  induction hp generalizing s with
  | nil => rfl
  | cons x _ ih => exact ih (max s x)
  | swap x y l =>
    show l.foldl max (max (max s y) x) = l.foldl max (max (max s x) y)
    rw [sup_right_comm s y x]
  | trans _ _ ih1 ih2 => exact (ih1 s).trans (ih2 s)

theorem foldl_min_le_seed (l : List ℚ) (s : ℚ) : l.foldl min s ≤ s := by
  induction l generalizing s with
  | nil => exact le_refl s
  | cons x xs ih => exact le_trans (ih (min s x)) (min_le_left s x)

theorem foldl_min_ge {l : List ℚ} {z : ℚ} (s : ℚ) (hs : z ≤ s) (hl : ∀ x ∈ l, z ≤ x) :
    z ≤ l.foldl min s := by
  induction l generalizing s with
  | nil => exact hs
  | cons x xs ih =>
    exact ih (min s x) (le_min hs (hl x (List.mem_cons_self x xs)))
      (fun y hy => hl y (List.mem_cons_of_mem x hy))

theorem foldl_min_gt {l : List ℚ} {z : ℚ} (s : ℚ) (hs : z < s) (hl : ∀ x ∈ l, z < x) :
    z < l.foldl min s := by
  induction l generalizing s with
  | nil => exact hs
  | cons x xs ih =>
    exact ih (min s x) (lt_min hs (hl x (List.mem_cons_self x xs)))
      (fun y hy => hl y (List.mem_cons_of_mem x hy))

theorem foldl_min_le_mem {l : List ℚ} {x : ℚ} (s : ℚ) (hx : x ∈ l) : l.foldl min s ≤ x := by
  induction l generalizing s with
  | nil => exact absurd hx (List.not_mem_nil x)
  | cons y ys ih =>
    rcases List.mem_cons.mp hx with hh | hh
    · subst hh
      exact le_trans (foldl_min_le_seed ys (min s x)) (min_le_right s x)
    · exact ih (min s y) hh

theorem foldl_min_swap (l : List ℚ) (s x : ℚ) :
    l.foldl min (min s x) = min x (l.foldl min s) := by
  induction l generalizing s with
  | nil => exact min_comm s x
  | cons y ys ih =>
    show ys.foldl min (min (min s x) y) = min x (ys.foldl min (min s y))
    rw [inf_right_comm s x y]
    exact ih (min s y)

theorem foldl_min_perm {l1 l2 : List ℚ} (hp : l1.Perm l2) (s : ℚ) :
    l1.foldl min s = l2.foldl min s := by
  induction hp generalizing s with
  | nil => rfl
  | cons x _ ih => exact ih (min s x)
  | swap x y l =>
    show l.foldl min (min (min s y) x) = l.foldl min (min (min s x) y)
    rw [inf_right_comm s y x]
  | trans _ _ ih1 ih2 => exact (ih1 s).trans (ih2 s)

mutual

theorem maxPlayer_pureBridge (g : Game) (h : GameState → ℚ) (depth : Nat) (state : GameState)
    (alpha beta : Option ℚ) (t : Nat) (c : Counters) :
    (maxPlayer g h trueClock depth state alpha beta t c).1 =
      some (pureMax g h depth state alpha beta) := by
  cases depth with
  | zero =>
    rw [maxPlayer.eq_def, pureMax.eq_def]
    dsimp only
    split <;> rfl
  | succ d =>
    rw [maxPlayer.eq_def, pureMax.eq_def]
    dsimp only
    split
    · rfl
    · exact maxLoop_pureBridge g h d state (moveOrder g state) (-10000) alpha beta t _
termination_by (depth, 0)

theorem maxLoop_pureBridge (g : Game) (h : GameState → ℚ) (d : Nat) (state : GameState)
    (l : List Dir) (best : ℚ) (alpha beta : Option ℚ) (t : Nat) (c : Counters) :
    (maxLoop g h trueClock d state l best alpha beta t c).1 =
      some (pureMaxLoop g h d state l best alpha beta) := by
  cases l with
  | nil =>
    rw [maxLoop.eq_def, pureMaxLoop.eq_def]
  | cons a rest =>
    rw [maxLoop.eq_def, pureMaxLoop.eq_def]
    dsimp only
    rw [if_neg (by simp [trueClock])]
    have hb := minPlayer_pureBridge g h d (g.move state a) alpha beta (t + 1) c
    rcases h1 : minPlayer g h trueClock d (g.move state a) alpha beta (t + 1) c with ⟨r, t2, c2⟩
    rw [h1] at hb
    dsimp only at hb
    subst hb
    dsimp only
    by_cases habg : abGe (amax alpha
        (if pureMin g h d (g.move state a) alpha beta > best then
          pureMin g h d (g.move state a) alpha beta else best)) beta = true
    · simp only [if_pos habg]
    · simp only [if_neg habg]
      exact maxLoop_pureBridge g h d state rest _ _ beta t2 c2
termination_by (d, l.length + 1)

theorem minPlayer_pureBridge (g : Game) (h : GameState → ℚ) (depth : Nat) (state : GameState)
    (alpha beta : Option ℚ) (t : Nat) (c : Counters) :
    (minPlayer g h trueClock depth state alpha beta t c).1 =
      some (pureMin g h depth state alpha beta) := by
  cases depth with
  | zero =>
    rw [minPlayer.eq_def, pureMin.eq_def]
    dsimp only
    split <;> rfl
  | succ d =>
    rw [minPlayer.eq_def, pureMin.eq_def]
    dsimp only
    split
    · rfl
    · exact minLoop_pureBridge g h d state (g.possibleTiles state) 1000000 alpha beta t _
termination_by (depth, 0)

theorem minLoop_pureBridge (g : Game) (h : GameState → ℚ) (d : Nat) (state : GameState)
    (l : List (Nat × Nat)) (best : ℚ) (alpha beta : Option ℚ) (t : Nat) (c : Counters) :
    (minLoop g h trueClock d state l best alpha beta t c).1 =
      some (pureMinLoop g h d state l best alpha beta) := by
  cases l with
  | nil =>
    rw [minLoop.eq_def, pureMinLoop.eq_def]
  | cons pv rest =>
    rw [minLoop.eq_def, pureMinLoop.eq_def]
    dsimp only
    rw [if_neg (by simp [trueClock])]
    have hb := maxPlayer_pureBridge g h d (g.addTile state pv.1 pv.2) alpha beta (t + 1) c
    rcases h1 : maxPlayer g h trueClock d (g.addTile state pv.1 pv.2) alpha beta (t + 1) c with ⟨r, t2, c2⟩
    rw [h1] at hb
    dsimp only at hb
    subst hb
    dsimp only
    by_cases habg : abGe alpha (bmin beta
        (if pureMax g h d (g.addTile state pv.1 pv.2) alpha beta < best then
          pureMax g h d (g.addTile state pv.1 pv.2) alpha beta else best)) = true
    · simp only [if_pos habg]
    · simp only [if_neg habg]
      exact minLoop_pureBridge g h d state rest _ alpha _ t2 c2
termination_by (d, l.length + 1)

end

theorem KM_refl (w : ℚ) (a b : Option ℚ) : KMspec w w a b :=
  ⟨fun hl => ⟨le_refl _, hl⟩, fun _ _ => rfl, fun hg => ⟨hg, le_refl _⟩⟩

theorem KM_maxLoopAux (g : Game) (h : GameState → ℚ) (d : Nat) (state : GameState)
    (IHmin : ∀ s alpha beta, abGe alpha beta = false →
      KMspec (pureMin g h d s alpha beta) (svMin g h d s) alpha beta) :
    ∀ (l : List Dir) (best : ℚ) (alpha beta : Option ℚ), abGe alpha beta = false →
      KMspec (pureMaxLoop g h d state l best alpha beta)
        ((l.map (fun a => svMin g h d (g.move state a))).foldl max best) alpha beta := by
  intro l
  induction l with
  | nil =>
    intro best alpha beta hab
    rw [pureMaxLoop.eq_def]
    simpa using KM_refl best alpha beta
  | cons a rest ih =>
    intro best alpha beta hab
    obtain ⟨KC1, KC2, KC3⟩ := IHmin (g.move state a) alpha beta hab
    rw [pureMaxLoop.eq_def]
    dsimp only
    simp only [List.map_cons, List.foldl_cons, ifMax]
    rw [foldl_max_swap]
    set vab := pureMin g h d (g.move state a) alpha beta with hvabdef
    set vst := svMin g h d (g.move state a) with hvstdef
    set S := List.foldl max best (List.map (fun a => svMin g h d (g.move state a)) rest)
      with hSdef
    have hbS : best ≤ S := foldl_max_seed_le _ _
    by_cases habg : abGe (amax alpha (max best vab)) beta = true
    · rw [if_pos habg]
      have hge : vGE (max best vab) beta := by
        rcases (abGe_amax alpha (max best vab) beta).mp habg with hc | hc
        · rw [hab] at hc
          exact absurd hc (by simp)
        · exact hc
      rcases hge with ⟨b, hbeq, hble⟩
      have haqb : ∀ aq, alpha = some aq → aq < b := by
        intro aq haq
        rw [haq, hbeq] at hab
        simp only [abGe, decide_eq_false_iff_not, not_le] at hab
        exact hab
      have hvstb : b ≤ vab → b ≤ vst := by
        intro hbvab
        by_cases hvla : vLE vst alpha
        · rcases KC1 hvla with ⟨h1, ⟨aq, haq, hvq⟩⟩
          exact absurd (le_trans hbvab hvq) (not_le.mpr (haqb aq haq))
        · by_cases hvgb : vGE vst beta
          · rcases hvgb with ⟨b2, hb2, hble2⟩
            rw [hbeq] at hb2
            injection hb2 with hb2
            rw [hb2]
            exact hble2
          · have heq := KC2 hvla hvgb
            rw [← heq]
            exact hbvab
      have hbT : b ≤ max vst S := by
        rcases le_max_iff.mp hble with hbb | hbb
        · exact le_max_of_le_right (le_trans hbb hbS)
        · exact le_max_of_le_left (hvstb hbb)
      have hvabT : vab ≤ max vst S := by
        by_cases hvb : vab ≤ best
        · exact le_max_of_le_right (le_trans hvb hbS)
        · have hbvab : b ≤ vab :=
            le_trans hble (max_le (le_of_not_le hvb) (le_refl _))
          by_cases hvla : vLE vst alpha
          · rcases KC1 hvla with ⟨h1, ⟨aq, haq, hvq⟩⟩
            exact absurd (le_trans hbvab hvq) (not_le.mpr (haqb aq haq))
          · by_cases hvgb : vGE vst beta
            · rcases KC3 hvgb with ⟨h1, hvv⟩
              exact le_max_of_le_left hvv
            · have heq := KC2 hvla hvgb
              rw [heq]
              exact le_max_left _ _
      refine ⟨?_, ?_, ?_⟩
      · rintro ⟨aq, haq, hTq⟩
        exact absurd (le_trans hbT hTq) (not_le.mpr (haqb aq haq))
      · intro hna hnb
        exact absurd ⟨b, hbeq, hbT⟩ hnb
      · intro _
        exact ⟨⟨b, hbeq, hble⟩, max_le (le_max_of_le_right hbS) hvabT⟩
    · rw [if_neg habg]
      have habg' : abGe (amax alpha (max best vab)) beta = false := by
        simpa using habg
      have IH := ih (max best vab) (amax alpha (max best vab)) beta habg'
      rw [foldl_max_swap] at IH
      obtain ⟨IH1, IH2, IH3⟩ := IH
      refine ⟨?_, ?_, ?_⟩
      · rintro ⟨aq, haq, hTq⟩
        have hvq : vst ≤ aq := le_trans (le_max_left _ _) hTq
        have hSq : S ≤ aq := le_trans (le_max_right _ _) hTq
        obtain ⟨hvv, ⟨aq2, haq2, hvabq⟩⟩ := KC1 ⟨aq, haq, hvq⟩
        rw [haq] at haq2
        injection haq2 with haq2
        rw [← haq2] at hvabq
        have hbq : best ≤ aq := le_trans hbS hSq
        have hbestq : max best vab ≤ aq := max_le hbq hvabq
        have halst : amax alpha (max best vab) = some aq := by
          rw [haq]
          simp only [amax]
          rw [max_eq_left hbestq]
        obtain ⟨hTw, ⟨aq3, haq3, hwq⟩⟩ := IH1 ⟨aq, halst, max_le hvabq hSq⟩
        rw [halst] at haq3
        injection haq3 with haq3
        rw [← haq3] at hwq
        exact ⟨le_trans (max_le_max hvv (le_refl S)) hTw, ⟨aq, haq, hwq⟩⟩
      · intro hna hnb
        by_cases hvgb : vGE vst beta
        · rcases hvgb with ⟨b, hbeq, hbv⟩
          exact absurd ⟨b, hbeq, le_trans hbv (le_max_left _ _)⟩ hnb
        · by_cases hvla : vLE vst alpha
          · rcases hvla with ⟨aq, haq, hvq⟩
            obtain ⟨hvv, ⟨aq2, haq2, hvabq⟩⟩ := KC1 ⟨aq, haq, hvq⟩
            rw [haq] at haq2
            injection haq2 with haq2
            rw [← haq2] at hvabq
            have haqT : aq < max vst S := by
              by_contra hc
              exact hna ⟨aq, haq, le_of_not_lt hc⟩
            have hSq : aq < S := by
              by_contra hc
              have hmm : max vst S ≤ aq := max_le hvq (le_of_not_lt hc)
              exact absurd haqT (not_lt.mpr hmm)
            have hTS : max vst S = S := max_eq_right (le_trans hvq (le_of_lt hSq))
            have hTrS : max vab S = S := max_eq_right (le_trans hvabq (le_of_lt hSq))
            by_cases hta : vLE (max vab S) (amax alpha (max best vab))
            · obtain ⟨hTw, ⟨aq3, haq3, hwq⟩⟩ := IH1 hta
              have haq3v : max aq (max best vab) = aq3 := by
                rw [haq] at haq3
                simp only [amax] at haq3
                injection haq3 with hh
              have haq3S : aq3 ≤ S := by
                rw [← haq3v]
                exact max_le (le_of_lt hSq)
                  (max_le hbS (le_trans hvabq (le_of_lt hSq)))
              rw [hTS]
              exact le_antisymm (le_trans hwq haq3S) (hTrS ▸ hTw)
            · have hgb' : ¬ vGE (max vab S) beta := by
                rw [hTrS]
                rw [hTS] at hnb
                exact hnb
              rw [IH2 hta hgb', hTrS, hTS]
          · have heq := KC2 hvla hvgb
            rw [heq] at IH1 IH2
            rw [heq]
            by_cases hta : vLE (max vst S) (amax alpha (max best vst))
            · obtain ⟨hTw, ⟨aq3, haq3, hwq⟩⟩ := IH1 hta
              have haq3T : aq3 ≤ max vst S := by
                cases halpha : alpha with
                | none =>
                  rw [halpha] at haq3
                  simp only [amax] at haq3
                  injection haq3 with hh
                  rw [← hh]
                  exact max_le (le_max_of_le_right hbS) (le_max_left _ _)
                | some aq =>
                  rw [halpha] at haq3
                  simp only [amax] at haq3
                  injection haq3 with hh
                  rw [← hh]
                  have haqT : aq < max vst S := by
                    by_contra hc
                    exact hna ⟨aq, halpha, le_of_not_lt hc⟩
                  exact max_le (le_of_lt haqT)
                    (max_le (le_trans hbS (le_max_right _ _)) (le_max_left _ _))
              exact le_antisymm (le_trans hwq haq3T) hTw
            · exact IH2 hta hnb
      · rintro ⟨b, hbeq, hbT⟩
        by_cases hvla : vLE vst alpha
        · rcases hvla with ⟨aq, haq, hvq⟩
          obtain ⟨hvv, ⟨aq2, haq2, hvabq⟩⟩ := KC1 ⟨aq, haq, hvq⟩
          rw [haq] at haq2
          injection haq2 with haq2
          rw [← haq2] at hvabq
          have haqb : aq < b := by
            rw [haq, hbeq] at hab
            simp only [abGe, decide_eq_false_iff_not, not_le] at hab
            exact hab
          have hbs : b ≤ S := by
            rcases le_max_iff.mp hbT with hh | hh
            · exact absurd (le_trans hh hvq) (not_le.mpr haqb)
            · exact hh
          obtain ⟨hwg, hwT⟩ := IH3 ⟨b, hbeq, le_max_of_le_right hbs⟩
          have hTrS : max vab S = S :=
            max_eq_right (le_trans hvabq (le_trans (le_of_lt haqb) hbs))
          refine ⟨hwg, le_trans hwT ?_⟩
          rw [hTrS]
          exact le_max_right _ _
        · by_cases hvgb : vGE vst beta
          · obtain ⟨hvabg, hvv⟩ := KC3 hvgb
            rcases hvabg with ⟨b2, hb2eq, hb2v⟩
            obtain ⟨hwg, hwT⟩ := IH3 ⟨b2, hb2eq, le_max_of_le_left hb2v⟩
            exact ⟨hwg, le_trans hwT (max_le_max hvv (le_refl S))⟩
          · have heq := KC2 hvla hvgb
            rw [heq] at IH3 ⊢
            exact IH3 ⟨b, hbeq, hbT⟩

theorem KM_minLoopAux (g : Game) (h : GameState → ℚ) (d : Nat) (state : GameState)
    (IHmax : ∀ s alpha beta, abGe alpha beta = false →
      KMspec (pureMax g h d s alpha beta) (svMax g h d s) alpha beta) :
    ∀ (l : List (Nat × Nat)) (best : ℚ) (alpha beta : Option ℚ), abGe alpha beta = false →
      KMspec (pureMinLoop g h d state l best alpha beta)
        ((l.map (fun pv => svMax g h d (g.addTile state pv.1 pv.2))).foldl min best)
        alpha beta := by
  intro l
  induction l with
  | nil =>
    intro best alpha beta hab
    rw [pureMinLoop.eq_def]
    simpa using KM_refl best alpha beta
  | cons pv rest ih =>
    intro best alpha beta hab
    obtain ⟨KC1, KC2, KC3⟩ := IHmax (g.addTile state pv.1 pv.2) alpha beta hab
    rw [pureMinLoop.eq_def]
    dsimp only
    simp only [List.map_cons, List.foldl_cons, ifMin]
    rw [foldl_min_swap]
    set vab := pureMax g h d (g.addTile state pv.1 pv.2) alpha beta with hvabdef
    set vst := svMax g h d (g.addTile state pv.1 pv.2) with hvstdef
    set S := List.foldl min best
      (List.map (fun pv => svMax g h d (g.addTile state pv.1 pv.2)) rest) with hSdef
    have hbS : S ≤ best := foldl_min_le_seed _ _
    by_cases habg : abGe alpha (bmin beta (min best vab)) = true
    · rw [if_pos habg]
      have hle : vLE (min best vab) alpha := by
        rcases (abGe_bmin alpha (min best vab) beta).mp habg with hc | hc
        · rw [hab] at hc
          exact absurd hc (by simp)
        · exact hc
      rcases hle with ⟨aq, haqeq, hale⟩
      have haqb : ∀ b, beta = some b → aq < b := by
        intro b hbeq
        rw [haqeq, hbeq] at hab
        simp only [abGe, decide_eq_false_iff_not, not_le] at hab
        exact hab
      have hvsta : vab ≤ aq → vst ≤ aq := by
        intro havab
        by_cases hvgb : vGE vst beta
        · rcases KC3 hvgb with ⟨⟨b2, hb2, hble2⟩, h1⟩
          exact absurd (le_trans hble2 havab) (not_le.mpr (haqb b2 hb2))
        · by_cases hvla : vLE vst alpha
          · rcases hvla with ⟨aq2, haq2, hvq⟩
            rw [haqeq] at haq2
            injection haq2 with haq2
            rw [← haq2] at hvq
            exact hvq
          · have heq := KC2 hvla hvgb
            rw [← heq]
            exact havab
      have hTa : min vst S ≤ aq := by
        rcases min_le_iff.mp hale with hbb | hbb
        · exact le_trans (min_le_right _ _) (le_trans hbS hbb)
        · exact le_trans (min_le_left _ _) (hvsta hbb)
      have hvabT : min vst S ≤ vab := by
        by_cases hvb : best ≤ vab
        · exact le_trans (min_le_right _ _) (le_trans hbS hvb)
        · have havab : vab ≤ aq := by
            have hmv : min best vab = vab := min_eq_right (le_of_not_le hvb)
            rw [hmv] at hale
            exact hale
          by_cases hvla : vLE vst alpha
          · rcases KC1 hvla with ⟨hvv, h1⟩
            exact le_trans (min_le_left _ _) hvv
          · by_cases hvgb : vGE vst beta
            · rcases KC3 hvgb with ⟨⟨b2, hb2, hb2v⟩, h1⟩
              exact absurd (le_trans hb2v havab) (not_le.mpr (haqb b2 hb2))
            · have heq := KC2 hvla hvgb
              rw [heq]
              exact min_le_left _ _
      refine ⟨?_, ?_, ?_⟩
      · intro _
        exact ⟨le_min (le_trans (min_le_right _ _) hbS) hvabT, ⟨aq, haqeq, hale⟩⟩
      · intro hna hnb
        exact absurd ⟨aq, haqeq, hTa⟩ hna
      · rintro ⟨b, hbeq, hbT⟩
        exact absurd (le_trans hbT hTa) (not_le.mpr (haqb b hbeq))
    · rw [if_neg habg]
      have habg' : abGe alpha (bmin beta (min best vab)) = false := by
        simpa using habg
      have IH := ih (min best vab) alpha (bmin beta (min best vab)) habg'
      rw [foldl_min_swap] at IH
      obtain ⟨IH1, IH2, IH3⟩ := IH
      refine ⟨?_, ?_, ?_⟩
      · rintro ⟨aq, haq, hTq⟩
        by_cases hvgb : vGE vst beta
        · rcases hvgb with ⟨b, hbeq, hbv⟩
          have haqb : aq < b := by
            rw [haq, hbeq] at hab
            simp only [abGe, decide_eq_false_iff_not, not_le] at hab
            exact hab
          obtain ⟨⟨b2, hb2, hb2v⟩, hvv⟩ := KC3 ⟨b, hbeq, hbv⟩
          rw [hbeq] at hb2
          injection hb2 with hb2
          rw [← hb2] at hb2v
          have hSa : S ≤ aq := by
            rcases min_le_iff.mp hTq with hh | hh
            · exact absurd hh (not_le.mpr (lt_of_lt_of_le haqb hbv))
            · exact hh
          obtain ⟨hTrw, hwa⟩ := IH1 ⟨aq, haq, le_trans (min_le_right _ _) hSa⟩
          have hTS : min vst S = S :=
            min_eq_right (le_trans hSa (le_of_lt (lt_of_lt_of_le haqb hbv)))
          have hTrS : min vab S = S :=
            min_eq_right (le_trans hSa (le_of_lt (lt_of_lt_of_le haqb hb2v)))
          rw [hTS]
          rw [hTrS] at hTrw
          exact ⟨hTrw, hwa⟩
        · by_cases hvla : vLE vst alpha
          · rcases hvla with ⟨aq2, haq2, hvq⟩
            rw [haq] at haq2
            injection haq2 with haq2
            rw [← haq2] at hvq
            obtain ⟨hvv, ⟨aq3, haq3, hvabq⟩⟩ := KC1 ⟨aq, haq, hvq⟩
            rw [haq] at haq3
            injection haq3 with haq3
            rw [← haq3] at hvabq
            obtain ⟨hTrw, hwa⟩ := IH1 ⟨aq, haq, le_trans (min_le_left _ _) hvabq⟩
            exact ⟨le_trans (min_le_min hvv (le_refl S)) hTrw, hwa⟩
          · have heq := KC2 hvla hvgb
            rw [heq] at IH1 ⊢
            exact IH1 ⟨aq, haq, hTq⟩
      · intro hna hnb
        by_cases hvla : vLE vst alpha
        · rcases hvla with ⟨aq, haq, hvq⟩
          exact absurd ⟨aq, haq, le_trans (min_le_left _ _) hvq⟩ hna
        · by_cases hvgb : vGE vst beta
          · rcases hvgb with ⟨b, hbeq, hbv⟩
            obtain ⟨⟨b2, hb2, hb2v⟩, hvv⟩ := KC3 ⟨b, hbeq, hbv⟩
            rw [hbeq] at hb2
            injection hb2 with hb2
            rw [← hb2] at hb2v
            have hTb : min vst S < b := by
              by_contra hc
              exact hnb ⟨b, hbeq, le_of_not_lt hc⟩
            have hSb : S < b := by
              by_contra hc
              have hmm : b ≤ min vst S := le_min hbv (le_of_not_lt hc)
              exact absurd hTb (not_lt.mpr hmm)
            have hTS : min vst S = S := min_eq_right (le_trans (le_of_lt hSb) hbv)
            have hTrS : min vab S = S := min_eq_right (le_trans (le_of_lt hSb) hb2v)
            by_cases htb : vGE (min vab S) (bmin beta (min best vab))
            · obtain ⟨hwg, hwT⟩ := IH3 htb
              rcases hwg with ⟨b3, hb3eq, hb3w⟩
              have hb3v : min b (min best vab) = b3 := by
                rw [hbeq] at hb3eq
                simp only [bmin] at hb3eq
                injection hb3eq with hh
              have hSb3 : S ≤ b3 := by
                rw [← hb3v]
                exact le_min (le_of_lt hSb) (le_min hbS (le_trans (le_of_lt hSb) hb2v))
              rw [hTS]
              exact le_antisymm (hTrS ▸ hwT) (le_trans hSb3 hb3w)
            · have hna' : ¬ vLE (min vab S) alpha := by
                rw [hTrS]
                rw [hTS] at hna
                exact hna
              rw [IH2 hna' htb, hTrS, hTS]
          · have heq := KC2 hvla hvgb
            rw [heq] at IH2 IH3 ⊢
            by_cases htb : vGE (min vst S) (bmin beta (min best vst))
            · obtain ⟨hwg, hwT⟩ := IH3 htb
              rcases hwg with ⟨b3, hb3eq, hb3w⟩
              have hTb3 : min vst S ≤ b3 := by
                cases hbeta : beta with
                | none =>
                  rw [hbeta] at hb3eq
                  simp only [bmin] at hb3eq
                  injection hb3eq with hh
                  rw [← hh]
                  exact le_min (le_trans (min_le_right _ _) hbS) (min_le_left _ _)
                | some b =>
                  rw [hbeta] at hb3eq
                  simp only [bmin] at hb3eq
                  injection hb3eq with hh
                  rw [← hh]
                  have hTb : min vst S < b := by
                    by_contra hc
                    exact hnb ⟨b, hbeta, le_of_not_lt hc⟩
                  exact le_min (le_of_lt hTb)
                    (le_min (le_trans (min_le_right _ _) hbS) (min_le_left _ _))
              exact le_antisymm hwT (le_trans hTb3 hb3w)
            · exact IH2 hna htb
      · rintro ⟨b, hbeq, hbT⟩
        have hbv : b ≤ vst := le_trans hbT (min_le_left _ _)
        have hbs : b ≤ S := le_trans hbT (min_le_right _ _)
        obtain ⟨⟨b2, hb2, hb2v⟩, hvv⟩ := KC3 ⟨b, hbeq, hbv⟩
        rw [hbeq] at hb2
        injection hb2 with hb2
        rw [← hb2] at hb2v
        have hbb' : bmin beta (min best vab) = some b := by
          rw [hbeq]
          simp only [bmin]
          rw [min_eq_left (le_min (le_trans hbs hbS) hb2v)]
        obtain ⟨hwg, hwT⟩ := IH3 ⟨b, hbb', le_min hb2v hbs⟩
        rcases hwg with ⟨b3, hb3eq, hb3w⟩
        rw [hbb'] at hb3eq
        injection hb3eq with hb3eq
        rw [← hb3eq] at hb3w
        exact ⟨⟨b, hbeq, hb3w⟩, le_trans hwT (min_le_min hvv (le_refl S))⟩

theorem KM_players (g : Game) (h : GameState → ℚ) : ∀ depth : Nat,
    (∀ state alpha beta, abGe alpha beta = false →
      KMspec (pureMax g h depth state alpha beta) (svMax g h depth state) alpha beta) ∧
    (∀ state alpha beta, abGe alpha beta = false →
      KMspec (pureMin g h depth state alpha beta) (svMin g h depth state) alpha beta) := by
  intro depth
  induction depth with
  | zero =>
    constructor
    · intro state alpha beta hab
      rw [pureMax.eq_def, svMax.eq_def]
      dsimp only
      split
      · exact KM_refl _ _ _
      · exact KM_refl _ _ _
    · intro state alpha beta hab
      rw [pureMin.eq_def, svMin.eq_def]
      dsimp only
      split
      · exact KM_refl _ _ _
      · exact KM_refl _ _ _
  | succ d ihd =>
    constructor
    · intro state alpha beta hab
      rw [pureMax.eq_def, svMax.eq_def]
      dsimp only
      split
      · exact KM_refl _ _ _
      · exact KM_maxLoopAux g h d state ihd.2 (moveOrder g state) (-10000) alpha beta hab
    · intro state alpha beta hab
      rw [pureMin.eq_def, svMin.eq_def]
      dsimp only
      split
      · exact KM_refl _ _ _
      · exact KM_minLoopAux g h d state ihd.1 (g.possibleTiles state) 1000000 alpha beta hab

theorem sv_range (g : Game) (h : GameState → ℚ)
    (H1 : ∀ s, g.gameOver s = false → g.actions s ≠ [])
    (H2 : ∀ s, g.gameOver s = false → g.possibleTiles s ≠ [])
    (H3a : ∀ s, -10000 < h s ∧ h s < 1000000)
    (H3b : ∀ s, g.gameOver s = true → -10000 < s.score ∧ s.score < 1000000) :
    ∀ depth state,
      ((-10000 : ℚ) < svMax g h depth state ∧ svMax g h depth state < 1000000) ∧
      ((-10000 : ℚ) < svMin g h depth state ∧ svMin g h depth state < 1000000) := by
  intro depth
  induction depth with
  | zero =>
    intro state
    constructor
    · rw [svMax.eq_def]
      dsimp only
      split
      · exact H3b state (by assumption)
      · exact H3a state
    · rw [svMin.eq_def]
      dsimp only
      split
      · exact H3b state (by assumption)
      · exact H3a state
  | succ d ihd =>
    intro state
    constructor
    · rw [svMax.eq_def]
      dsimp only
      split
      · exact H3b state (by assumption)
      · rename_i hgo
        have hne : moveOrder g state ≠ [] := by
          intro hc
          exact H1 state (by simpa using hgo) ((moveOrder_nil_iff g state).mp hc)
        rcases hmo : moveOrder g state with _ | ⟨a0, rest⟩
        · exact absurd hmo hne
        constructor
        · have hmem : svMin g h d (g.move state a0) ∈
              (a0 :: rest).map (fun a => svMin g h d (g.move state a)) :=
            List.mem_map_of_mem _ (List.mem_cons_self a0 rest)
          exact lt_of_lt_of_le (ihd (g.move state a0)).2.1 (mem_le_foldl_max _ hmem)
        · refine foldl_max_lt _ (by norm_num) ?_
          intro x hx
          rcases List.mem_map.mp hx with ⟨a, ha, hfa⟩
          rw [← hfa]
          exact (ihd (g.move state a)).2.2
    · rw [svMin.eq_def]
      dsimp only
      split
      · exact H3b state (by assumption)
      · rename_i hgo
        have hne : g.possibleTiles state ≠ [] := H2 state (by simpa using hgo)
        rcases hmo : g.possibleTiles state with _ | ⟨p0, rest⟩
        · exact absurd hmo hne
        constructor
        · refine foldl_min_gt _ (by norm_num) ?_
          intro x hx
          rcases List.mem_map.mp hx with ⟨p, hp, hfp⟩
          rw [← hfp]
          exact (ihd (g.addTile state p.1 p.2)).1.1
        · have hmem : svMax g h d (g.addTile state p0.1 p0.2) ∈
              (p0 :: rest).map (fun pv => svMax g h d (g.addTile state pv.1 pv.2)) :=
            List.mem_map_of_mem _ (List.mem_cons_self p0 rest)
          exact lt_of_le_of_lt (foldl_min_le_mem _ hmem) (ihd (g.addTile state p0.1 p0.2)).1.2

theorem sv_eq_spec (g : Game) (h : GameState → ℚ)
    (H1 : ∀ s, g.gameOver s = false → g.actions s ≠ [])
    (H2 : ∀ s, g.gameOver s = false → g.possibleTiles s ≠ [])
    (H3a : ∀ s, -10000 < h s ∧ h s < 1000000)
    (H3b : ∀ s, g.gameOver s = true → -10000 < s.score ∧ s.score < 1000000) :
    ∀ depth state, svMax g h depth state = maxVal g h depth state ∧
      svMin g h depth state = minVal g h depth state := by
  intro depth
  induction depth with
  | zero =>
    intro state
    constructor
    · rw [svMax.eq_def, maxVal.eq_def]
    · rw [svMin.eq_def, minVal.eq_def]
  | succ d ihd =>
    intro state
    constructor
    · rw [svMax.eq_def, maxVal.eq_def]
      dsimp only
      split
      · rfl
      · rename_i hgo
        have hperm : ((moveOrder g state).map (fun a => svMin g h d (g.move state a))).Perm
            ((g.actions state).map (fun a => svMin g h d (g.move state a))) :=
          (moveOrder_perm g state).map _
        rw [foldl_max_perm hperm]
        rcases hact : g.actions state with _ | ⟨a0, rest⟩
        · exact absurd hact (H1 state (by simpa using hgo))
        have hmc : rest.map (fun a => minVal g h d (g.move state a)) =
            rest.map (fun a => svMin g h d (g.move state a)) := by
          refine List.map_congr_left ?_
          intro a ha
          exact (ihd (g.move state a)).2.symm
        dsimp only [List.map_cons]
        rw [hmc, (ihd (g.move state a0)).2]
        rw [List.foldl_cons]
        have hrange := (sv_range g h H1 H2 H3a H3b d (g.move state a0)).2.1
        rw [(ihd (g.move state a0)).2] at hrange
        rw [max_eq_right (le_of_lt hrange)]
    · rw [svMin.eq_def, minVal.eq_def]
      dsimp only
      split
      · rfl
      · rename_i hgo
        rcases htl : g.possibleTiles state with _ | ⟨p0, rest⟩
        · exact absurd htl (H2 state (by simpa using hgo))
        have hmc : rest.map (fun pv => maxVal g h d (g.addTile state pv.1 pv.2)) =
            rest.map (fun pv => svMax g h d (g.addTile state pv.1 pv.2)) := by
          refine List.map_congr_left ?_
          intro p hp
          exact (ihd (g.addTile state p.1 p.2)).1.symm
        dsimp only [List.map_cons]
        rw [hmc, (ihd (g.addTile state p0.1 p0.2)).1]
        rw [List.foldl_cons]
        have hrange := (sv_range g h H1 H2 H3a H3b d (g.addTile state p0.1 p0.2)).1.2
        rw [(ihd (g.addTile state p0.1 p0.2)).1] at hrange
        rw [min_eq_right (le_of_lt hrange)]

/-- C2: with no deadline pressure (a clock that always passes) and a facade
meeting its contract (non-terminal states have actions and tile placements;
leaf values lie strictly between the loop seeds -10000 and 1000000), the
pruned alpha-beta search maxPlayer at the full window (-inf, +inf) returns
exactly the value of the unpruned alternating traversal maxVal (maximum over
legal actions at Max nodes, minimum over possibleTiles at Chance nodes), and
symmetrically minPlayer returns minVal: pruning never changes the returned
value. -/
theorem c2_thm (g : Game) (h : GameState → ℚ)
    (H1 : ∀ s, g.gameOver s = false → g.actions s ≠ [])
    (H2 : ∀ s, g.gameOver s = false → g.possibleTiles s ≠ [])
    (H3a : ∀ s, -10000 < h s ∧ h s < 1000000)
    (H3b : ∀ s, g.gameOver s = true → -10000 < s.score ∧ s.score < 1000000)
    (depth : Nat) (state : GameState) (t : Nat) (c : Counters) :
    (maxPlayer g h trueClock depth state none none t c).1 = some (maxVal g h depth state) ∧
    (minPlayer g h trueClock depth state none none t c).1 = some (minVal g h depth state) := by
  have hkm := KM_players g h depth
  have hmax : pureMax g h depth state none none = svMax g h depth state :=
    (hkm.1 state none none rfl).2.1 (by rintro ⟨x, hx, h2⟩; cases hx)
      (by rintro ⟨x, hx, h2⟩; cases hx)
  have hmin : pureMin g h depth state none none = svMin g h depth state :=
    (hkm.2 state none none rfl).2.1 (by rintro ⟨x, hx, h2⟩; cases hx)
      (by rintro ⟨x, hx, h2⟩; cases hx)
  constructor
  · rw [maxPlayer_pureBridge, hmax, (sv_eq_spec g h H1 H2 H3a H3b depth state).1]
  · rw [minPlayer_pureBridge, hmin, (sv_eq_spec g h H1 H2 H3a H3b depth state).2]

/-- C2 witness: the equivalence applied to a concrete game and evaluator
satisfying the facade contract, at depth 2. -/
theorem c2_witness :
    (maxPlayer toyG toyH trueClock 2 s0 none none 0 c0).1 = some (maxVal toyG toyH 2 s0) ∧
    (minPlayer toyG toyH trueClock 2 s0 none none 0 c0).1 = some (minVal toyG toyH 2 s0) :=
  c2_thm toyG toyH (fun s hs => by simp [toyG]) (fun s hs => by simp [toyG])
    (fun s => by
      unfold toyH
      constructor
      · exact lt_min (by norm_num)
          (lt_of_lt_of_le (by norm_num : (-10000 : ℚ) < 0)
            (by positivity : (0 : ℚ) ≤ (s.board.length : ℚ)))
      · exact min_lt_iff.mpr (Or.inl (by norm_num)))
    (fun s hgo => by simp [toyG] at hgo) 2 s0 0 c0
